import Mathlib

/-!
Verification of the LCP protocol-client and session layer.

Shallow embedding of the TypeScript sources:
  src/utils/coordinate-converter.ts   (toZeroBased, toOneBased)
  src/utils/error-handler.ts          (toToolResult, withErrorHandling)
  src/dap/event-bus.ts                (EventBus waitFor / emit / clear)
  src/dap/client.ts                   (request multiplexer, frame codec, disconnect)
  src/dap/breakpoint-manager.ts       (BreakpointManager)
  src/core/session.ts                 (SessionStore get / cleanup)
  src/tools/lcp_debug_step.ts         (debug step orchestrator)

JavaScript Map and Set are modelled as insertion-ordered association
lists; uuid keys are modelled as fresh numeric ids; promise settlement
is modelled as an explicit log of (id, outcome) pairs so that
exactly-once properties are expressible.
-/

namespace LCP

/-! ## Coordinate converter (src/utils/coordinate-converter.ts) -/

/-- Source `toZeroBased(line) = Math.max(0, line - 1)`. -/
def toZeroBased (line : Int) : Int := max 0 (line - 1)

/-- Source `toOneBased(line) = line + 1`. -/
def toOneBased (line : Int) : Int := line + 1

/-! ## Association lists

JavaScript `Map` keeps insertion order; it is modelled as an association
list with `alookup` as `Map.get`. -/

/-- Lookup in an insertion-ordered association list (models `Map.get`). -/
def alookup {α β : Type} [DecidableEq α] (k : α) : List (α × β) → Option β
  | [] => none
  | (a, b) :: rest => if a = k then some b else alookup k rest

/-! ## Error handler (src/utils/error-handler.ts) -/

/-- Source enum `ErrorCode` from src/core/types.ts. -/
inductive ErrorCode where
  | sessionNotFound
  | fileNotFound
  | symbolNotFound
  | lspError
  | dapError
  | timeout
  | invalidArgument
  | internalError
deriving DecidableEq, Repr

/-- Error payload of a failed `ToolResult` (the `error` field). -/
structure ErrorInfo where
  code : ErrorCode
  message : String
  details : Option String
deriving DecidableEq, Repr

/-- Source interface `ToolResult` (success flag plus optional data / error). -/
structure ToolResult (T : Type) where
  success : Bool
  data : Option T
  error : Option ErrorInfo
deriving DecidableEq, Repr

/-- A thrown or rejected JavaScript value as classified by `toToolResult`:
an `LCPError` (with its code, message and details), any other `Error`
(name, message, optional stack), or a non-Error thrown value. -/
inductive JsError where
  | lcp (code : ErrorCode) (message : String) (details : Option String)
  | plain (name : String) (message : String) (stack : Option String)
  | other (value : String)
deriving DecidableEq, Repr

/-- Source `toToolResult(error)`: an `LCPError` keeps its own code, any
other `Error` maps to INTERNAL_ERROR keeping its message and stack, and a
non-Error value maps to INTERNAL_ERROR with a fixed message. -/
def toToolResult (T : Type) (e : JsError) : ToolResult T :=
  match e with
  | .lcp code message details =>
      ⟨false, none, some ⟨code, message, details⟩⟩
  | .plain _ message stack =>
      ⟨false, none, some ⟨.internalError, message, stack⟩⟩
  | .other value =>
      ⟨false, none, some ⟨.internalError, "An unknown error occurred", some value⟩⟩

/-- Source `withErrorHandling(fn)`: the settled outcome of `fn()` is either
a fulfilled value (then wrapped as success) or a rejection (then converted
by `toToolResult`); the returned promise itself always fulfills. -/
def withErrorHandling (T : Type) (outcome : Except JsError T) : ToolResult T :=
  match outcome with
  | .ok d => ⟨true, some d, none⟩
  | .error e => toToolResult T e

/-- Code of a `JsError` as assigned by `toToolResult`. -/
def jsErrorCode (e : JsError) : ErrorCode :=
  match e with
  | .lcp code _ _ => code
  | .plain _ _ _ => .internalError
  | .other _ => .internalError

/-! ## Event bus (src/dap/event-bus.ts)

State of one `EventBus` plus a settlement log.  Waiters carry the fresh
numeric id of their promise; settlement (resolve with a body, reject by
timer, reject by clear) is recorded in the log.  A timer that fires is
modelled by the `timerFire` operation; `removeWaiter` calls
`clearTimeout`, so a timer of a deregistered waiter can no longer fire,
which the model captures by making `timerFire` on an unregistered id a
no-op. -/

/-- Source `options.timeout || 5000`: an absent or zero timeout option
falls back to the 5000 ms default. -/
def effectiveTimeout (timeoutOpt : Option Nat) : Nat :=
  match timeoutOpt with
  | none => 5000
  | some v => if v = 0 then 5000 else v

/-- Source interface `EventWaiter` (resolver and rejecter are represented
by the waiter id used in the settlement log; the pending timer is the
`timeoutMs` it was registered with). -/
structure EventWaiter where
  wid : Nat
  eventType : String
  timeoutMs : Nat
deriving DecidableEq, Repr

/-- Settlement outcome of one waiter promise. -/
inductive BusOutcome (B : Type) where
  | resolved (body : B)
  | timedOut
  | cleared
deriving DecidableEq, Repr

/-- State of an `EventBus`: the registered waiter list, a fresh-id
counter, and the settlement log. -/
structure BusState (B : Type) where
  waiters : List EventWaiter
  nextWid : Nat
  log : List (Nat × BusOutcome B)
deriving DecidableEq, Repr

/-- Initial bus state. -/
def busInit (B : Type) : BusState B := ⟨[], 0, []⟩

/-- Operations on an `EventBus`: register a waiter (`waitFor`), a
registered timer fires, `emit`, `clear`. -/
inductive BusOp (B : Type) where
  | waitFor (eventType : String) (timeoutOpt : Option Nat)
  | timerFire (wid : Nat)
  | emit (eventType : String) (body : B)
  | clearBus
deriving DecidableEq, Repr

/-- Source `removeWaiter`: splice out the first (unique) waiter with this
id; also cancels its timer. -/
def removeWaiter (w : Nat) : List EventWaiter → List EventWaiter
  | [] => []
  | x :: rest => if x.wid = w then rest else x :: removeWaiter w rest

/-- One step of the event bus.
`waitFor` appends a waiter with the effective timeout;
`timerFire w` (the timer callback) removes the waiter and rejects it with
a timeout outcome, and is a no-op when the waiter is already gone (its
timer was cancelled by `removeWaiter`);
`emit` resolves and removes exactly the waiters whose eventType matches;
`clearBus` rejects and removes every waiter. -/
def busStep (s : BusState B) : BusOp B → BusState B
  | .waitFor ty topt =>
      ⟨s.waiters ++ [⟨s.nextWid, ty, effectiveTimeout topt⟩], s.nextWid + 1, s.log⟩
  | .timerFire w =>
      if s.waiters.any (fun x => x.wid = w) then
        ⟨removeWaiter w s.waiters, s.nextWid, s.log ++ [(w, .timedOut)]⟩
      else s
  | .emit ty body =>
      ⟨s.waiters.filter (fun x => ¬ x.eventType = ty), s.nextWid,
        s.log ++ (s.waiters.filter (fun x => x.eventType = ty)).map
          (fun x => (x.wid, .resolved body))⟩
  | .clearBus =>
      ⟨[], s.nextWid, s.log ++ s.waiters.map (fun x => (x.wid, .cleared))⟩

/-- Run a sequence of bus operations from the initial state. -/
def busRun (B : Type) (ops : List (BusOp B)) : BusState B :=
  ops.foldl busStep (busInit B)

/-- Well-formedness invariant of a bus state: waiter ids are distinct,
logged ids are distinct, no id is both registered and settled, and all
ids are below the counter. -/
def BusInv (s : BusState B) : Prop :=
  (s.waiters.map EventWaiter.wid).Nodup ∧
  (s.log.map Prod.fst).Nodup ∧
  (∀ x ∈ s.waiters, x.wid ∉ s.log.map Prod.fst) ∧
  (∀ x ∈ s.waiters, x.wid < s.nextWid) ∧
  (∀ p ∈ s.log, p.1 < s.nextWid)


/-! ## Request multiplexer (src/dap/client.ts: sendRequest / handleMessage / handleExit)

The pendingRequests Map of a DAPClient is modelled as the
insertion-ordered list of pending sequence numbers; promise settlement is
recorded in an explicit log.  `sendRequest` allocates `nextSeq++` and
stores a PendingCall; a response whose `request_seq` matches a pending
entry deletes it and resolves or rejects by the `success` flag (an
unmatched response is ignored); `handleExit` rejects every pending entry
with an exit-code error and clears the table. -/

/-- How a PendingCall promise was settled. -/
inductive SettleKind where
  | ok
  | failed
  | exited (code : Option Int)
deriving DecidableEq, Repr

/-- State of the multiplexer: the seq counter (starting at 1), the
pending table in insertion order, and the settlement log. -/
structure MuxState where
  nextSeq : Nat
  pending : List Nat
  settled : List (Nat × SettleKind)
deriving DecidableEq, Repr

/-- Initial multiplexer state (`nextSeq = 1`). -/
def muxInit : MuxState := ⟨1, [], []⟩

/-- Operations arriving at the multiplexer: a `sendRequest` call, an
inbound response with its `request_seq` and `success` flag, and process
exit with its code. -/
inductive MuxOp where
  | send
  | response (rseq : Nat) (success : Bool)
  | exit (code : Option Int)
deriving DecidableEq, Repr

/-- One multiplexer step, following handleMessage / handleExit. -/
def muxStep (s : MuxState) : MuxOp → MuxState
  | .send => ⟨s.nextSeq + 1, s.pending ++ [s.nextSeq], s.settled⟩
  | .response r success =>
      if r ∈ s.pending then
        ⟨s.nextSeq, s.pending.erase r,
          s.settled ++ [(r, if success then .ok else .failed)]⟩
      else s
  | .exit code =>
      ⟨s.nextSeq, [], s.settled ++ s.pending.map (fun i => (i, .exited code))⟩

/-- Run a sequence of multiplexer operations from the initial state. -/
def muxRun (ops : List MuxOp) : MuxState := ops.foldl muxStep muxInit

/-- Multiplexer invariant: pending ids distinct, settled ids distinct, no
id both pending and settled, and the pending and settled ids are exactly
the allocated ids 1 .. nextSeq - 1. -/
def MuxInv (s : MuxState) : Prop :=
  1 ≤ s.nextSeq ∧
  s.pending.Nodup ∧
  (s.settled.map Prod.fst).Nodup ∧
  (∀ i ∈ s.pending, i ∉ s.settled.map Prod.fst) ∧
  (∀ i, (i ∈ s.pending ∨ i ∈ s.settled.map Prod.fst) ↔ (1 ≤ i ∧ i < s.nextSeq))


/-! ## Breakpoint manager (src/dap/breakpoint-manager.ts)

The `breakpoints` Map (id to BreakpointInfo) and the `breakpointsByFile`
Map (file to Set of ids) are modelled as insertion-ordered association
lists; the uuid of a new breakpoint is modelled by a fresh-id counter. -/

/-- Source interface `BreakpointInfo` from src/core/types.ts. -/
structure BreakpointInfo where
  bid : Nat
  file : String
  line : Nat
  verified : Bool
  enabled : Bool
  condition : Option String
  hitCondition : Option String
  logMessage : Option String
deriving DecidableEq, Repr

/-- Wire-ready entry produced by `getBreakpointsForDap` for one
breakpoint (the line is copied from the stored breakpoint unchanged). -/
structure DapBreakpoint where
  line : Nat
  condition : Option String
  hitCondition : Option String
  logMessage : Option String
deriving DecidableEq, Repr

/-- Options of `BreakpointManager.add`. -/
structure BPOptions where
  condition : Option String
  hitCondition : Option String
  logMessage : Option String
  enabled : Option Bool
deriving DecidableEq, Repr

/-- State of a `BreakpointManager`. -/
structure BPState where
  breakpoints : List (Nat × BreakpointInfo)
  byFile : List (String × List Nat)
  nextId : Nat
deriving DecidableEq, Repr

/-- Empty breakpoint manager. -/
def bpInit : BPState := ⟨[], [], 0⟩

/-- Register a breakpoint id under its file, keeping Map insertion order:
an existing file keeps its position and appends the id to its Set, a new
file is appended at the end. -/
def addToFile (file : String) (i : Nat) :
    List (String × List Nat) → List (String × List Nat)
  | [] => [(file, [i])]
  | (g, is) :: rest =>
      if g = file then (g, is ++ [i]) :: rest
      else (g, is) :: addToFile file i rest

/-- Source `BreakpointManager.add`: always creates a new record with a
fresh id, verified false, enabled defaulting to true. -/
def bpAdd (st : BPState) (file : String) (line : Nat) (opts : BPOptions) :
    BPState × BreakpointInfo :=
  let bp : BreakpointInfo :=
    ⟨st.nextId, file, line, false, opts.enabled.getD true,
      opts.condition, opts.hitCondition, opts.logMessage⟩
  (⟨st.breakpoints ++ [(bp.bid, bp)], addToFile file bp.bid st.byFile,
    st.nextId + 1⟩, bp)

/-- Source `BreakpointManager.getByFile`: all breakpoints of a file
regardless of enabled state. -/
def getByFile (st : BPState) (file : String) : List BreakpointInfo :=
  match alookup file st.byFile with
  | none => []
  | some ids => ids.filterMap (fun i => alookup i st.breakpoints)

/-- Wire mapping used by `getBreakpointsForDap`: the stored (1-based)
line is copied unchanged together with condition, hitCondition and
logMessage. -/
def toDapEntry (bp : BreakpointInfo) : DapBreakpoint :=
  ⟨bp.line, bp.condition, bp.hitCondition, bp.logMessage⟩

/-- Wire entries of one file in `getBreakpointsForDap`: resolve the ids,
keep only enabled breakpoints, map to wire-ready fields. -/
def dapEntriesOf (bps : List (Nat × BreakpointInfo)) (ids : List Nat) :
    List DapBreakpoint :=
  ((ids.filterMap (fun i => alookup i bps)).filter (fun bp => bp.enabled)).map
    toDapEntry

/-- Per-file step of `getBreakpointsForDap`: a file whose enabled list is
empty produces no result entry. -/
def dapFileEntry (bps : List (Nat × BreakpointInfo)) (p : String × List Nat) :
    Option (String × List DapBreakpoint) :=
  if (dapEntriesOf bps p.2).isEmpty then none else some (p.1, dapEntriesOf bps p.2)

/-- Source `BreakpointManager.getBreakpointsForDap`: per file, the enabled
breakpoints mapped to wire-ready fields; files with no enabled breakpoint
are omitted. -/
def getBreakpointsForDap (st : BPState) : List (String × List DapBreakpoint) :=
  st.byFile.filterMap (dapFileEntry st.breakpoints)

/-- Add options with no condition and default enabled. -/
def noOpts : BPOptions := ⟨none, none, none, none⟩

/-- Add options creating a disabled breakpoint. -/
def disabledOpts : BPOptions := ⟨none, none, none, some false⟩

/-- The state of claim C1: for one file, breakpoints
(line 5, enabled), (line 9, disabled), (line 5, enabled). -/
def c1state : BPState :=
  (bpAdd (bpAdd (bpAdd bpInit "main.py" 5 noOpts).1 "main.py" 9
    disabledOpts).1 "main.py" 5 noOpts).1

/-! ## Session store (src/core/session.ts)

A `SessionStore` is modelled as the association list from session id to
its lastAccessedAt timestamp (the only session field the cleanup sweep
and the eviction claim depend on); session ids are numeric, time is a
Nat of milliseconds. -/

/-- Session-store error (`SessionError`, code SESSION_NOT_FOUND). -/
inductive SessionErr where
  | sessionNotFound
deriving DecidableEq, Repr

/-- A session store: id to lastAccessedAt. -/
abbrev SStore := List (Nat × Nat)

/-- Source `SessionStore.cleanup`: delete every session whose idle time
`now - lastAccessedAt` strictly exceeds the timeout. -/
def cleanupStore (timeout : Nat) (st : SStore) (now : Nat) : SStore :=
  st.filter (fun p => now - p.2 ≤ timeout)

/-- Refresh lastAccessedAt of one session (the mutation done by `get`). -/
def refreshLa (st : SStore) (id now : Nat) : SStore :=
  st.map (fun p => if p.1 = id then (p.1, now) else p)

/-- Source `SessionStore.get`: throws SessionError when the id is absent,
otherwise refreshes lastAccessedAt and returns the session. -/
def getSession (st : SStore) (id now : Nat) : Except SessionErr (SStore × Nat) :=
  match alookup id st with
  | none => .error .sessionNotFound
  | some _ => .ok (refreshLa st id now, now)

/-- Timed operations against the store: a `get` access of one session, or
a run of the periodic cleanup sweep. -/
inductive StoreOp where
  | access (id : Nat)
  | sweep
deriving DecidableEq, Repr

/-- One timed store step: an access refreshes lastAccessedAt through
`getSession` (a failed access changes nothing); a sweep runs the cleanup. -/
def storeStep (timeout : Nat) (st : SStore) : StoreOp × Nat → SStore
  | (.access i, t) =>
      match getSession st i t with
      | .ok (st2, _) => st2
      | .error _ => st
  | (.sweep, t) => cleanupStore timeout st t

/-- Run a sequence of timed store operations. -/
def storeRun (timeout : Nat) (st : SStore) (ops : List (StoreOp × Nat)) : SStore :=
  ops.foldl (storeStep timeout) st

/-- Every sweep in the trace happens within the timeout of the tracked
last access of session `id` (the tracked time is updated by each access
of `id`, exactly as `get` refreshes lastAccessedAt). -/
def sweepSafe (id timeout : Nat) : Nat → List (StoreOp × Nat) → Bool
  | _, [] => true
  | la, (.access j, t) :: rest => sweepSafe id timeout (if j = id then t else la) rest
  | la, (.sweep, t) :: rest => decide (t - la ≤ timeout) && sweepSafe id timeout la rest

/-! ## DAP client disconnect (src/dap/client.ts)

State of a DAPClient as relevant to `disconnect`: the handshake flag (the
TS boolean field set true by the initialize method, modelled here as
`ready`), whether the owned child process is alive, and the registered
event-bus waiters.  The graceful outcome models whether the
`sendRequest('disconnect', ...)` promise fulfilled or rejected; the
source wraps it in try/catch, logs a failure and continues. -/

/-- Shutdown-relevant state of a `DAPClient`. -/
structure DAPClientState where
  ready : Bool
  processAlive : Bool
  busWaiters : List EventWaiter
deriving DecidableEq, Repr

/-- Outcome of the best-effort graceful disconnect request. -/
inductive GracefulOutcome where
  | ok
  | failed
deriving DecidableEq, Repr

/-- Source `DAPClient.disconnect`: when the handshake flag is unset it
returns immediately; otherwise the graceful request outcome is swallowed,
the process is killed, the event bus is cleared, and the flag is reset. -/
def disconnect (st : DAPClientState) (_g : GracefulOutcome) : DAPClientState :=
  if st.ready then ⟨false, false, []⟩ else st

/-! ## Debug step orchestrator (src/tools/lcp_debug_step.ts)

`lcpDebugStep` and `getCurrentState` are embedded as functions of an
oracle environment fixing what the debug adapter answers: whether a
stopped event arrives within the primary wait, whether one arrives within
the secondary wait after the forced pause, and the stack-trace, scopes
and variables responses.  The embedding returns the ordered list of DAP
requests issued together with the outcome. -/

/-- Step actions of the tool (`continue` is `cont`: Lean keyword). -/
inductive StepAction where
  | next
  | stepIn
  | stepOut
  | cont
deriving DecidableEq, Repr

/-- Body of a stopped event. -/
structure StopEvent where
  reason : String
  threadId : Nat
deriving DecidableEq, Repr

/-- One stack frame of the stackTrace response. -/
structure StackFrame where
  fid : Nat
  name : String
  line : Nat
  column : Nat
  sourcePath : Option String
deriving DecidableEq, Repr

/-- One scope of the scopes response. -/
structure ScopeInfo where
  name : String
  variablesReference : Nat
deriving DecidableEq, Repr

/-- One variable of the variables response. -/
structure VarInfo where
  name : String
  value : String
  type : Option String
  variablesReference : Option Nat
deriving DecidableEq, Repr

/-- The orchestration output `DebugState`. -/
structure DebugState where
  status : String
  reason : String
  currentLine : Option Nat
  currentFile : Option String
  callStack : List StackFrame
  localVariables : List VarInfo
deriving DecidableEq, Repr

/-- DAP requests issued by the orchestrator, in order. -/
inductive DapRequest where
  | action (a : StepAction) (threadId : Nat)
  | waitStopped (timeoutMs : Nat)
  | pause (threadId : Nat)
  | stackTrace (threadId : Nat)
  | scopes (frameId : Nat)
  | variables (ref : Nat)
deriving DecidableEq, Repr

/-- Oracle environment: adapter answers for one step invocation. -/
structure StepEnv where
  primaryStop : Option StopEvent
  secondaryStop : Option StopEvent
  frames : List StackFrame
  scopeList : List ScopeInfo
  vars : List VarInfo
deriving DecidableEq, Repr

/-- Outcome of one step invocation: a stopped DebugState, or the
propagated timeout failure when even the forced pause produced no stop
event. -/
inductive StepOutcome where
  | stopped (st : DebugState)
  | timedOutFailure
deriving DecidableEq, Repr

/-- Source `params.threadId || 1`: absent or zero falls back to 1. -/
def defaultThreadId (topt : Option Nat) : Nat :=
  match topt with
  | none => 1
  | some t => if t = 0 then 1 else t

/-- Source `getCurrentState`: a stackTrace request, then — when frames
are nonempty — a scopes request for the top frame, then — when scopes
are nonempty — a variables request for the top scope; assembled into a
DebugState with status stopped, the given reason, and the top-frame
line and file. -/
def getCurrentState (env : StepEnv) (threadId : Nat) (reason : String) :
    List DapRequest × DebugState :=
  match env.frames with
  | [] => ([.stackTrace threadId], ⟨"stopped", reason, none, none, [], []⟩)
  | f :: fr =>
    match env.scopeList with
    | [] =>
        ([.stackTrace threadId, .scopes f.fid],
          ⟨"stopped", reason, some f.line, f.sourcePath, f :: fr, []⟩)
    | sc :: _ =>
        ([.stackTrace threadId, .scopes f.fid, .variables sc.variablesReference],
          ⟨"stopped", reason, some f.line, f.sourcePath, f :: fr, env.vars⟩)

/-- Source `lcpDebugStep`: issue the action, wait 5000 ms for a stopped
event; on timeout send pause for the same thread and wait 2000 ms; if a
stop event arrived on either path gather the current state, otherwise
the timeout failure propagates. -/
def lcpDebugStep (env : StepEnv) (a : StepAction) (topt : Option Nat) :
    List DapRequest × StepOutcome :=
  let tid := defaultThreadId topt
  match env.primaryStop with
  | some ev =>
      let g := getCurrentState env ev.threadId ev.reason
      ([.action a tid, .waitStopped 5000] ++ g.1, .stopped g.2)
  | none =>
      match env.secondaryStop with
      | some ev =>
          let g := getCurrentState env ev.threadId ev.reason
          ([.action a tid, .waitStopped 5000, .pause tid, .waitStopped 2000] ++ g.1,
            .stopped g.2)
      | none =>
          ([.action a tid, .waitStopped 5000, .pause tid, .waitStopped 2000],
            .timedOutFailure)

/-! ## Frame codec (src/dap/client.ts: sendRequest framing and handleData)

The decoded buffer string is modelled as a list of characters, each one
UTF-16 code unit of the JavaScript string (Lean Char excludes surrogate
halves, so the model covers exactly the strings of BMP scalar values;
`.length`, `substring`, `indexOf` and the regex all operate on those
units, so list length and list indices here are faithful to the source).
`sendRequest` frames an outgoing body as Content-Length: n CRLF CRLF
body, where n is `Buffer.byteLength(content)` — the UTF-8 BYTE count of
the body, modelled by `utf8Length`, which exceeds the code-unit count as
soon as the body has a non-ASCII character.  `handleData` appends the
arriving chunk to the buffer and repeatedly (1) matches the first
occurrence of the header regex capturing the decimal length, (2) finds
the first CRLF CRLF, (3) if the buffer holds the announced number of
CODE UNITS after it — the source compares the byte-denominated length
against the code-unit `buffer.length` — extracts them as one message and
continues on the remainder, else leaves the buffer for the next chunk.
The unit mismatch is kept: it is what claim C3 turns on. -/

/-- UTF-8 byte width of one scalar value (what `Buffer.byteLength`
counts for it). -/
def utf8Len (c : Char) : Nat :=
  if c.toNat < 0x80 then 1
  else if c.toNat < 0x800 then 2
  else if c.toNat < 0x10000 then 3
  else 4

/-- Source `Buffer.byteLength(content)`: the UTF-8 byte count of a
string. -/
def utf8Length (l : List Char) : Nat := (l.map utf8Len).sum

/-- The header literal, character by character (Content-Length-colon-space). -/
def headerPrefix : List Char :=
  ['C', 'o', 'n', 't', 'e', 'n', 't', '-', 'L', 'e', 'n', 'g', 't', 'h', ':', ' ']

/-- Decimal digit character of a value below ten. -/
def digitChar (d : Nat) : Char :=
  match d with
  | 0 => '0' | 1 => '1' | 2 => '2' | 3 => '3' | 4 => '4'
  | 5 => '5' | 6 => '6' | 7 => '7' | 8 => '8' | _ => '9'

/-- Decimal representation of a Nat (the template interpolation of the
length in `sendRequest`). -/
def natDigits (n : Nat) : List Char :=
  if n < 10 then [digitChar n]
  else natDigits (n / 10) ++ [digitChar (n % 10)]
termination_by n
decreasing_by exact Nat.div_lt_self (by omega) (by omega)

/-- Numeric value of a digit character. -/
def digitVal (c : Char) : Nat := c.toNat - 48

/-- Source `parseInt(headerMatch[1], 10)` on a digit string. -/
def digitsToNat (ds : List Char) : Nat :=
  ds.foldl (fun acc c => 10 * acc + digitVal c) 0

/-- Strip an expected prefix, returning the remainder on success. -/
def stripPrefixCL : List Char → List Char → Option (List Char)
  | [], s => some s
  | _ :: _, [] => none
  | p :: ps, c :: cs => if c = p then stripPrefixCL ps cs else none

/-- Match of the header regex anchored at the current position: the
header literal, then a maximal nonempty digit run, then CR LF, capturing
the parsed length.  (The regex one-or-more-digits is greedy with
backtracking, but a proper digit prefix is always followed by another
digit, never CR, so only the maximal run can match.) -/
def matchHeaderHere (s : List Char) : Option Nat :=
  match stripPrefixCL headerPrefix s with
  | none => none
  | some rest =>
    let ds := rest.takeWhile Char.isDigit
    match ds, rest.dropWhile Char.isDigit with
    | [], _ => none
    | _ :: _, '\r' :: '\n' :: _ => some (digitsToNat ds)
    | _ :: _, _ => none

/-- First match of the header regex anywhere in the buffer (leftmost, as
`buffer.match` returns), yielding the captured length. -/
def firstHeaderLen : List Char → Option Nat
  | [] => none
  | c :: rest =>
    match matchHeaderHere (c :: rest) with
    | some n => some n
    | none => firstHeaderLen rest

/-- The CR LF CR LF separator searched by `buffer.indexOf`. -/
def crlf2 : List Char := ['\r', '\n', '\r', '\n']

/-- Index of the first occurrence of a pattern (`String.indexOf`). -/
def indexOfSeq (pat : List Char) : List Char → Option Nat
  | [] => none
  | c :: rest =>
      if pat.isPrefixOf (c :: rest) then some 0
      else (indexOfSeq pat rest).map (· + 1)

/-- Source `handleData` extraction loop on the current buffer: returns
the complete messages extracted, in order, and the remaining buffered
data.  The announced `contentLength` (UTF-8 bytes) is compared against
`buffer.length` and used as a `substring` width — both UTF-16 code-unit
quantities (client.ts:197-201), which is the source's unit mismatch. -/
def extractLoop (buf : List Char) : List (List Char) × List Char :=
  match firstHeaderLen buf with
  | none => ([], buf)
  | some contentLength =>
    match indexOfSeq crlf2 buf with
    | none => ([], buf)
    | some headerEnd =>
      if h : buf.length < headerEnd + 4 + contentLength then ([], buf)
      else
        let r := extractLoop (buf.drop (headerEnd + 4 + contentLength))
        (((buf.drop (headerEnd + 4)).take contentLength) :: r.1, r.2)
termination_by buf.length
decreasing_by simp only [List.length_drop]; omega

/-- Source `sendRequest` framing: the header literal, the decimal UTF-8
BYTE length of the body (`Buffer.byteLength(content)`, client.ts:142),
CR LF CR LF, then the body. -/
def encodeMsg (body : List Char) : List Char :=
  headerPrefix ++ natDigits (utf8Length body) ++
    '\r' :: '\n' :: '\r' :: '\n' :: body

/-- One `handleData` call: append the chunk to the buffer, run the
extraction loop, emit the extracted messages. -/
def feedChunk (acc : List (List Char) × List Char) (chunk : List Char) :
    List (List Char) × List Char :=
  ((acc.1 ++ (extractLoop (acc.2 ++ chunk)).1), (extractLoop (acc.2 ++ chunk)).2)

/-- Feed a sequence of chunks to a client starting with an empty buffer;
returns all messages parsed, in order, and the final buffered remainder. -/
def feedChunks (chunks : List (List Char)) : List (List Char) × List Char :=
  chunks.foldl feedChunk ([], [])

/-! ## Lemmas and claim theorems -/

theorem alookup_eq_none_of_not_mem {α β : Type} [DecidableEq α] {k : α} :
    ∀ {l : List (α × β)}, k ∉ l.map Prod.fst → alookup k l = none := by
  intro l
  induction l with
  | nil => intro _; rfl
  | cons p rest ih =>
    obtain ⟨a, b⟩ := p
    intro h
    simp only [List.map_cons, List.mem_cons] at h
    push_neg at h
    simp only [alookup]
    rw [if_neg (fun he => h.1 he.symm)]
    exact ih h.2

theorem mem_keys_of_alookup_eq_some {α β : Type} [DecidableEq α] {k : α} :
    ∀ {l : List (α × β)} {v : β}, alookup k l = some v → k ∈ l.map Prod.fst := by
  intro l
  induction l with
  | nil => intro v h; simp [alookup] at h
  | cons p rest ih =>
    obtain ⟨a, b⟩ := p
    intro v h
    simp only [alookup] at h
    by_cases he : a = k
    · simp [he]
    · rw [if_neg he] at h
      exact List.mem_cons_of_mem _ (ih h)

theorem busInv_init (B : Type) : BusInv (busInit B) := by
  refine ⟨List.nodup_nil, List.nodup_nil, ?_, ?_, ?_⟩ <;> simp [busInit]

theorem removeWaiter_subset {w : Nat} {l : List EventWaiter} :
    ∀ x ∈ removeWaiter w l, x ∈ l := by
  induction l with
  | nil => simp [removeWaiter]
  | cons a rest ih =>
    intro x hx
    simp only [removeWaiter] at hx
    by_cases h : a.wid = w
    · simp [h] at hx; exact List.mem_cons_of_mem _ hx
    · simp [h] at hx
      rcases hx with hx | hx
      · simp [hx]
      · exact List.mem_cons_of_mem _ (ih x hx)

theorem removeWaiter_map_wid_sublist {w : Nat} {l : List EventWaiter} :
    List.Sublist ((removeWaiter w l).map EventWaiter.wid) (l.map EventWaiter.wid) := by
  induction l with
  | nil => simp [removeWaiter]
  | cons a rest ih =>
    simp only [removeWaiter]
    by_cases h : a.wid = w
    · simp only [if_pos h, List.map_cons]
      exact List.Sublist.cons _ (List.Sublist.refl _)
    · simp only [if_neg h, List.map_cons]
      exact List.Sublist.cons₂ _ ih

/-- Removing a waiter whose id is present shortens the registered set by
exactly that waiter; in particular the removed id is gone when ids are
distinct. -/
theorem removeWaiter_not_mem {w : Nat} {l : List EventWaiter}
    (hnd : (l.map EventWaiter.wid).Nodup) :
    w ∉ (removeWaiter w l).map EventWaiter.wid := by
  induction l with
  | nil => simp [removeWaiter]
  | cons a rest ih =>
    simp only [List.map_cons, List.nodup_cons] at hnd
    simp only [removeWaiter]
    by_cases h : a.wid = w
    · simp only [if_pos h]
      intro hmem
      exact hnd.1 (h ▸ hmem)
    · simp only [if_neg h, List.map_cons, List.mem_cons]
      rintro (hc | hmem)
      · exact h hc.symm
      · exact ih hnd.2 hmem

theorem busInv_step {B : Type} {s : BusState B} (hs : BusInv s) (op : BusOp B) :
    BusInv (busStep s op) := by
  obtain ⟨hw, hl, hdisj, hwlt, hllt⟩ := hs
  cases op with
  | waitFor ty topt =>
    simp only [BusInv, busStep]
    refine ⟨?_, hl, ?_, ?_, ?_⟩
    · rw [List.map_append]
      refine List.Nodup.append hw (by simp) ?_
      intro a ha hb
      simp only [List.map_cons, List.map_nil, List.mem_singleton] at hb
      obtain ⟨x, hx, hxe⟩ := List.mem_map.mp ha
      have hlt := hwlt x hx
      omega
    · intro x hx
      simp only [List.mem_append, List.mem_singleton] at hx
      rcases hx with hx | hx
      · exact hdisj x hx
      · subst hx
        simp only [List.mem_map, not_exists, not_and]
        intro p hp hpe
        have := hllt p hp
        omega
    · intro x hx
      simp only [List.mem_append, List.mem_singleton] at hx
      rcases hx with hx | hx
      · exact Nat.lt_succ_of_lt (hwlt x hx)
      · subst hx; exact Nat.lt_succ_self _
    · intro p hp
      exact Nat.lt_succ_of_lt (hllt p hp)
  | timerFire w =>
    simp only [BusInv, busStep]
    split
    case isTrue hin =>
      have hwmem : ∃ x ∈ s.waiters, x.wid = w := by
        simpa using hin
      obtain ⟨x0, hx0, hx0w⟩ := hwmem
      refine ⟨?_, ?_, ?_, ?_, ?_⟩
      · exact List.Nodup.sublist removeWaiter_map_wid_sublist hw
      · rw [List.map_append]
        refine List.Nodup.append hl (by simp) ?_
        intro a ha hb
        simp only [List.map_cons, List.map_nil, List.mem_singleton] at hb
        subst hb
        exact (hdisj x0 hx0) (hx0w ▸ ha)
      · intro x hx
        rw [List.map_append]
        simp only [List.mem_append, List.map_cons, List.map_nil, List.mem_singleton]
        rintro (hmem | heq)
        · exact hdisj x (removeWaiter_subset x hx) hmem
        · have : x.wid ∉ (removeWaiter w s.waiters).map EventWaiter.wid :=
            heq ▸ removeWaiter_not_mem hw
          exact this (List.mem_map_of_mem _ hx)
      · intro x hx
        exact hwlt x (removeWaiter_subset x hx)
      · intro p hp
        simp only [List.mem_append, List.mem_singleton] at hp
        rcases hp with hp | hp
        · exact hllt p hp
        · subst hp
          exact hx0w ▸ hwlt x0 hx0
    case isFalse hin =>
      exact ⟨hw, hl, hdisj, hwlt, hllt⟩
  | emit ty body =>
    have hsubf : List.Sublist
        ((s.waiters.filter (fun x => decide (x.eventType = ty))).map EventWaiter.wid)
        (s.waiters.map EventWaiter.wid) :=
      List.Sublist.map _ (List.filter_sublist _)
    have hsubnf : List.Sublist
        ((s.waiters.filter (fun x => decide (¬ x.eventType = ty))).map EventWaiter.wid)
        (s.waiters.map EventWaiter.wid) :=
      List.Sublist.map _ (List.filter_sublist _)
    simp only [BusInv, busStep]
    refine ⟨?_, ?_, ?_, ?_, ?_⟩
    · exact List.Nodup.sublist hsubnf hw
    · rw [List.map_append]
      refine List.Nodup.append hl ?_ ?_
      · rw [List.map_map]
        have heq : (Prod.fst ∘ fun x => (x.wid, BusOutcome.resolved body)) =
            EventWaiter.wid := by
          funext x; rfl
        rw [heq]
        exact List.Nodup.sublist hsubf hw
      · intro a ha hb
        rw [List.map_map] at hb
        obtain ⟨y, hy, hye⟩ := List.mem_map.mp hb
        have hys : y ∈ s.waiters := List.mem_of_mem_filter hy
        have : (Prod.fst ∘ fun x => (x.wid, BusOutcome.resolved body)) y = y.wid := rfl
        rw [this] at hye
        exact hdisj y hys (hye ▸ ha)
    · intro x hx
      rw [List.map_append]
      simp only [List.mem_append]
      rintro (hmem | hmem)
      · exact hdisj x (List.mem_of_mem_filter hx) hmem
      · rw [List.map_map] at hmem
        obtain ⟨y, hy, hye⟩ := List.mem_map.mp hmem
        have : (Prod.fst ∘ fun x => (x.wid, BusOutcome.resolved body)) y = y.wid := rfl
        rw [this] at hye
        have hxney : ¬ x.eventType = ty := by
          have := List.of_mem_filter hx
          simpa using this
        have hyty : y.eventType = ty := by
          have := List.of_mem_filter hy
          simpa using this
        have hxs : x ∈ s.waiters := List.mem_of_mem_filter hx
        have hys : y ∈ s.waiters := List.mem_of_mem_filter hy
        have hxy : y = x := by
          have hinj := List.inj_on_of_nodup_map hw
          exact hinj hys hxs hye
        subst hxy
        exact hxney hyty
    · intro x hx
      exact hwlt x (List.mem_of_mem_filter hx)
    · intro p hp
      simp only [List.mem_append] at hp
      rcases hp with hp | hp
      · exact hllt p hp
      · obtain ⟨y, hy, hye⟩ := List.mem_map.mp hp
        have := hwlt y (List.mem_of_mem_filter hy)
        have h1 : p.1 = y.wid := by rw [← hye]
        omega
  | clearBus =>
    simp only [BusInv, busStep]
    refine ⟨List.nodup_nil, ?_, by simp, by simp, ?_⟩
    · rw [List.map_append]
      refine List.Nodup.append hl ?_ ?_
      · rw [List.map_map]
        have heq : (Prod.fst ∘ fun x : EventWaiter => (x.wid, BusOutcome.cleared (B := B))) =
            EventWaiter.wid := by
          funext x; rfl
        rw [heq]
        exact hw
      · intro a ha hb
        rw [List.map_map] at hb
        obtain ⟨y, hy, hye⟩ := List.mem_map.mp hb
        have : (Prod.fst ∘ fun x : EventWaiter => (x.wid, BusOutcome.cleared (B := B))) y =
            y.wid := rfl
        rw [this] at hye
        exact hdisj y hy (hye ▸ ha)
    · intro p hp
      simp only [List.mem_append] at hp
      rcases hp with hp | hp
      · exact hllt p hp
      · obtain ⟨y, hy, hye⟩ := List.mem_map.mp hp
        have := hwlt y hy
        have h1 : p.1 = y.wid := by rw [← hye]
        omega

theorem busInv_run (B : Type) (ops : List (BusOp B)) : BusInv (busRun B ops) := by
  suffices h : ∀ s, BusInv s → BusInv (ops.foldl busStep s) from
    h (busInit B) (busInv_init B)
  induction ops with
  | nil => intro s hs; exact hs
  | cons op rest ih =>
    intro s hs
    exact ih (busStep s op) (busInv_step hs op)

/-! ## Claim theorems: C4, C10 -/

/-- Claim C4: for every reachable event-bus state, (1) every waiter is
settled at most once (the settlement log has distinct ids); (2) a timer
firing for a still-registered waiter deregisters it and settles it as a
timeout failure; (3) a timer of a deregistered waiter is cancelled and
settles nothing; (4) emit settles and deregisters exactly the waiters
registered for that event name; (5) every waiter matching the emitted
name is resolved with the emitted body and deregistered; (6) only
matching waiters are settled by an emit. -/
theorem C4_eventbus_exactly_once {B : Type} (ops : List (BusOp B)) :
    (((busRun B ops).log.map Prod.fst).Nodup) ∧
    (∀ w, w ∈ (busRun B ops).waiters.map EventWaiter.wid →
      busStep (busRun B ops) (.timerFire w) =
        ⟨removeWaiter w (busRun B ops).waiters, (busRun B ops).nextWid,
          (busRun B ops).log ++ [(w, .timedOut)]⟩) ∧
    (∀ w, w ∉ (busRun B ops).waiters.map EventWaiter.wid →
      busStep (busRun B ops) (.timerFire w) = busRun B ops) ∧
    (∀ ty b, busStep (busRun B ops) (.emit ty b) =
      ⟨(busRun B ops).waiters.filter (fun x => ¬ x.eventType = ty),
        (busRun B ops).nextWid,
        (busRun B ops).log ++
          ((busRun B ops).waiters.filter (fun x => x.eventType = ty)).map
            (fun x => (x.wid, .resolved b))⟩) ∧
    (∀ ty b x, x ∈ (busRun B ops).waiters → x.eventType = ty →
      (x.wid, BusOutcome.resolved b) ∈ (busStep (busRun B ops) (.emit ty b)).log ∧
        x ∉ (busStep (busRun B ops) (.emit ty b)).waiters) ∧
    (∀ ty b p, p ∈ (busStep (busRun B ops) (.emit ty b)).log →
      p ∈ (busRun B ops).log ∨ ∃ x ∈ (busRun B ops).waiters,
        x.eventType = ty ∧ p = (x.wid, BusOutcome.resolved b)) := by
  obtain ⟨hw, hl, hdisj, hwlt, hllt⟩ := busInv_run B ops
  refine ⟨hl, ?_, ?_, fun ty b => rfl, ?_, ?_⟩
  · intro w hwmem
    obtain ⟨x, hx, hxe⟩ := List.mem_map.mp hwmem
    have hany : ((busRun B ops).waiters.any (fun x => x.wid = w)) = true := by
      simp only [List.any_eq_true]
      exact ⟨x, hx, by simpa using hxe⟩
    simp only [busStep, if_pos hany]
  · intro w hwmem
    have hany : ¬ ((busRun B ops).waiters.any (fun x => x.wid = w)) = true := by
      intro hcontra
      obtain ⟨y, hy, hye⟩ := List.any_eq_true.mp hcontra
      exact hwmem (List.mem_map.mpr ⟨y, hy, by simpa using hye⟩)
    simp only [busStep]
    rw [if_neg hany]
  · intro ty b x hx hxty
    constructor
    · simp only [busStep, List.mem_append]
      right
      exact List.mem_map.mpr ⟨x, List.mem_filter.mpr ⟨hx, by simpa using hxty⟩, rfl⟩
    · simp only [busStep]
      intro hmem
      have := List.of_mem_filter hmem
      simp only [decide_eq_true_eq] at this
      exact this hxty
  · intro ty b p hp
    simp only [busStep, List.mem_append] at hp
    rcases hp with hp | hp
    · exact Or.inl hp
    · right
      obtain ⟨x, hxf, hxe⟩ := List.mem_map.mp hp
      exact ⟨x, List.mem_of_mem_filter hxf,
        by simpa using List.of_mem_filter hxf, hxe.symm⟩

/-- Witness for C4: a waiter for the stopped event whose timer fires
before any emit is settled as a timeout failure and deregistered; a
waiter for the stopped event that sees a matching emit is resolved with
the emitted body. -/
theorem C4_witness :
    busStep (busRun Nat [.waitFor "stopped" (some 50)]) (.timerFire 0) =
      ⟨[], 1, [(0, .timedOut)]⟩ ∧
    (0, BusOutcome.resolved 42) ∈
      (busStep (busRun Nat [.waitFor "stopped" (some 5000)])
        (.emit "stopped" 42)).log := by
  constructor
  · exact ((C4_eventbus_exactly_once (B := Nat)
      [.waitFor "stopped" (some 50)]).2.1 0 (by decide)).trans (by decide)
  · exact ((C4_eventbus_exactly_once (B := Nat)
      [.waitFor "stopped" (some 5000)]).2.2.2.2.1 "stopped" 42
      ⟨0, "stopped", 5000⟩ (by decide) rfl).1

/-- Claim C10: a `waitFor` whose timeout option is absent or zero
registers its waiter with the 5000 ms default, and no `waitFor` can
register a zero-millisecond timer. -/
theorem C10_waitFor_default_timeout {B : Type} (s : BusState B) (ty : String) :
    effectiveTimeout none = 5000 ∧
    effectiveTimeout (some 0) = 5000 ∧
    (∀ topt, 0 < effectiveTimeout topt) ∧
    (∀ topt, busStep s (.waitFor ty topt) =
      ⟨s.waiters ++ [⟨s.nextWid, ty, effectiveTimeout topt⟩], s.nextWid + 1, s.log⟩) := by
  refine ⟨rfl, rfl, ?_, fun topt => rfl⟩
  intro topt
  match topt with
  | none => decide
  | some v =>
    simp only [effectiveTimeout]
    split
    · decide
    · omega

theorem muxInv_init : MuxInv muxInit := by
  refine ⟨le_refl _, List.nodup_nil, List.nodup_nil, by simp [muxInit], ?_⟩
  intro i
  simp [muxInit]
  omega

theorem muxInv_step {s : MuxState} (hs : MuxInv s) (op : MuxOp) :
    MuxInv (muxStep s op) := by
  obtain ⟨hn, hp, hl, hdisj, hcomp⟩ := hs
  cases op with
  | send =>
    simp only [MuxInv, muxStep]
    refine ⟨by omega, ?_, hl, ?_, ?_⟩
    · refine List.Nodup.append hp (by simp) ?_
      intro a ha hb
      simp only [List.mem_singleton] at hb
      have := (hcomp a).mp (Or.inl ha)
      omega
    · intro i hi
      simp only [List.mem_append, List.mem_singleton] at hi
      rcases hi with hi | hi
      · exact hdisj i hi
      · subst hi
        intro hmem
        have := (hcomp s.nextSeq).mp (Or.inr hmem)
        omega
    · intro i
      simp only [List.mem_append, List.mem_singleton]
      constructor
      · rintro ((hi | hi) | hi)
        · have := (hcomp i).mp (Or.inl hi); omega
        · omega
        · have := (hcomp i).mp (Or.inr hi); omega
      · intro hi
        by_cases he : i = s.nextSeq
        · exact Or.inl (Or.inr he)
        · have := (hcomp i).mpr ⟨hi.1, by omega⟩
          rcases this with h | h
          · exact Or.inl (Or.inl h)
          · exact Or.inr h
  | response r success =>
    by_cases hr : r ∈ s.pending
    · simp only [MuxInv, muxStep, if_pos hr]
      refine ⟨hn, hp.erase r, ?_, ?_, ?_⟩
      · rw [List.map_append]
        refine List.Nodup.append hl (by simp) ?_
        intro a ha hb
        simp only [List.map_cons, List.map_nil, List.mem_singleton] at hb
        exact hdisj r hr (hb ▸ ha)
      · intro i hi
        rw [List.map_append]
        simp only [List.mem_append, List.map_cons, List.map_nil, List.mem_singleton]
        have hine : i ≠ r := ((List.Nodup.mem_erase_iff hp).mp hi).1
        have himem : i ∈ s.pending := ((List.Nodup.mem_erase_iff hp).mp hi).2
        rintro (hmem | heq)
        · exact hdisj i himem hmem
        · exact hine heq
      · intro i
        rw [List.map_append]
        simp only [List.mem_append, List.map_cons, List.map_nil, List.mem_singleton,
          List.Nodup.mem_erase_iff hp]
        constructor
        · rintro (⟨hne, hi⟩ | hi | hi)
          · exact (hcomp i).mp (Or.inl hi)
          · exact (hcomp i).mp (Or.inr hi)
          · subst hi; exact (hcomp i).mp (Or.inl hr)
        · intro hi
          rcases (hcomp i).mpr hi with h | h
          · by_cases he : i = r
            · exact Or.inr (Or.inr he)
            · exact Or.inl ⟨he, h⟩
          · exact Or.inr (Or.inl h)
    · simp only [MuxInv, muxStep, if_neg hr]
      exact ⟨hn, hp, hl, hdisj, hcomp⟩
  | exit code =>
    simp only [MuxInv, muxStep]
    refine ⟨hn, List.nodup_nil, ?_, by simp, ?_⟩
    · rw [List.map_append]
      refine List.Nodup.append hl ?_ ?_
      · rw [List.map_map]
        have heq : (Prod.fst ∘ fun i : Nat => (i, SettleKind.exited code)) = id := by
          funext x; rfl
        rw [heq, List.map_id]
        exact hp
      · intro a ha hb
        rw [List.map_map] at hb
        obtain ⟨y, hy, hye⟩ := List.mem_map.mp hb
        have hyy : (Prod.fst ∘ fun i : Nat => (i, SettleKind.exited code)) y = y := rfl
        rw [hyy] at hye
        exact hdisj y hy (hye.symm ▸ ha)
    · intro i
      rw [List.map_append, List.map_map]
      have heq : (Prod.fst ∘ fun i : Nat => (i, SettleKind.exited code)) = id := by
        funext x; rfl
      rw [heq, List.map_id]
      simp only [List.not_mem_nil, List.mem_append, false_or]
      constructor
      · rintro (hi | hi)
        · exact (hcomp i).mp (Or.inr hi)
        · exact (hcomp i).mp (Or.inl hi)
      · intro hi
        rcases (hcomp i).mpr hi with h | h
        · exact Or.inr h
        · exact Or.inl h

theorem muxInv_run (ops : List MuxOp) : MuxInv (muxRun ops) := by
  suffices h : ∀ s, MuxInv s → MuxInv (ops.foldl muxStep s) from h muxInit muxInv_init
  induction ops with
  | nil => intro s hs; exact hs
  | cons op rest ih =>
    intro s hs
    exact ih (muxStep s op) (muxInv_step hs op)

/-! ## Claim theorems: C2 -/

/-- Claim C2: for every reachable multiplexer state, (1) settled ids are
distinct, so no PendingCall is ever settled twice; (2) a pending id is
not yet settled; (3) a response matching a pending entry removes it and
settles it according to its success flag; (4) a response matching no
pending entry changes nothing and settles no call; (5) process exit
rejects every still-pending entry with an exit-code error and clears the
table; (6) after an exit, every id ever allocated has been settled
exactly once. -/
theorem C2_mux_exactly_once (ops : List MuxOp) :
    (((muxRun ops).settled.map Prod.fst).Nodup) ∧
    (∀ i ∈ (muxRun ops).pending, i ∉ (muxRun ops).settled.map Prod.fst) ∧
    (∀ r success, r ∈ (muxRun ops).pending →
      muxStep (muxRun ops) (.response r success) =
        ⟨(muxRun ops).nextSeq, (muxRun ops).pending.erase r,
          (muxRun ops).settled ++ [(r, if success then .ok else .failed)]⟩) ∧
    (∀ r success, r ∉ (muxRun ops).pending →
      muxStep (muxRun ops) (.response r success) = muxRun ops) ∧
    (∀ code, muxStep (muxRun ops) (.exit code) =
      ⟨(muxRun ops).nextSeq, [],
        (muxRun ops).settled ++ (muxRun ops).pending.map (fun i => (i, .exited code))⟩) ∧
    (∀ code i, 1 ≤ i → i < (muxRun ops).nextSeq →
      ((muxStep (muxRun ops) (.exit code)).settled.map Prod.fst).count i = 1) := by
  obtain ⟨hn, hp, hl, hdisj, hcomp⟩ := muxInv_run ops
  refine ⟨hl, hdisj, ?_, ?_, fun code => rfl, ?_⟩
  · intro r success hr
    simp only [muxStep, if_pos hr]
  · intro r success hr
    simp only [muxStep, if_neg hr]
  · intro code i h1 h2
    simp only [muxStep, List.map_append, List.map_map]
    have heq : (Prod.fst ∘ fun i : Nat => (i, SettleKind.exited code)) = id := by
      funext x; rfl
    rw [heq, List.map_id, List.count_append]
    rcases (hcomp i).mpr ⟨h1, h2⟩ with h | h
    · have c1 : (muxRun ops).pending.count i = 1 := List.count_eq_one_of_mem hp h
      have c0 : ((muxRun ops).settled.map Prod.fst).count i = 0 :=
        List.count_eq_zero.mpr (hdisj i h)
      omega
    · have c1 : ((muxRun ops).settled.map Prod.fst).count i = 1 :=
        List.count_eq_one_of_mem hl h
      have c0 : (muxRun ops).pending.count i = 0 := by
        refine List.count_eq_zero.mpr ?_
        intro hmem
        exact hdisj i hmem h
      omega

/-- Witness for C2 at the concrete trace send, send, response 1: the id 2
is still pending, so a response for id 2 settles it by its success flag,
a second response for the already-settled id 1 settles nothing, and exit
settles id 2 exactly once while id 1 stays settled exactly once. -/
theorem C2_witness :
    muxStep (muxRun [.send, .send, .response 1 true]) (.response 2 false) =
      ⟨3, [], [(1, .ok), (2, .failed)]⟩ ∧
    muxStep (muxRun [.send, .send, .response 1 true]) (.response 1 true) =
      muxRun [.send, .send, .response 1 true] ∧
    ((muxStep (muxRun [.send, .send, .response 1 true])
      (.exit (some 0))).settled.map Prod.fst).count 1 = 1 := by
  refine ⟨?_, ?_, ?_⟩
  · exact ((C2_mux_exactly_once [.send, .send, .response 1 true]).2.2.1 2 false
      (by decide)).trans (by decide)
  · exact (C2_mux_exactly_once [.send, .send, .response 1 true]).2.2.2.1 1 true
      (by decide)
  · exact (C2_mux_exactly_once [.send, .send, .response 1 true]).2.2.2.2.2
      (some 0) 1 (by decide) (by decide)

/-! ## Claim theorems: C8, C9 -/

/-- Claim C8: every operation wrapped by `withErrorHandling` settles to a
structured result, never a raw exception: a fulfilled value yields
success true with the data; every thrown or rejected error yields
success false with an error record present, whose code is the LCPError
code when the error is an LCPError and INTERNAL_ERROR otherwise. -/
theorem C8_withErrorHandling_structured (T : Type) :
    (∀ d : T, withErrorHandling T (.ok d) = ⟨true, some d, none⟩) ∧
    (∀ e : JsError, (withErrorHandling T (.error e)).success = false ∧
      (withErrorHandling T (.error e)).data = none ∧
      ∃ info, (withErrorHandling T (.error e)).error = some info ∧
        info.code = jsErrorCode e) ∧
    (∀ c m dt, withErrorHandling T (.error (.lcp c m dt)) =
      ⟨false, none, some ⟨c, m, dt⟩⟩) ∧
    (∀ n m st, withErrorHandling T (.error (.plain n m st)) =
      ⟨false, none, some ⟨.internalError, m, st⟩⟩) ∧
    (∀ v, withErrorHandling T (.error (.other v)) =
      ⟨false, none, some ⟨.internalError, "An unknown error occurred", some v⟩⟩) := by
  refine ⟨fun d => rfl, fun e => ?_, fun c m dt => rfl, fun n m st => rfl, fun v => rfl⟩
  cases e <;> exact ⟨rfl, rfl, _, rfl, rfl⟩

/-- Claim C9: for every integer n at least 1, `toOneBased (toZeroBased n) = n`,
and for every n at most 0, `toZeroBased n = 0` (negative and zero inputs
clamp to 0). -/
theorem C9_coordinate_roundtrip (n : Int) :
    (1 ≤ n → toOneBased (toZeroBased n) = n) ∧ (n ≤ 0 → toZeroBased n = 0) := by
  constructor
  · intro h
    simp only [toZeroBased, toOneBased]
    omega
  · intro h
    simp only [toZeroBased]
    omega

/-- Witness for C9 at the concrete inputs 7 and -3. -/
theorem C9_witness :
    toOneBased (toZeroBased 7) = 7 ∧ toZeroBased (-3) = 0 :=
  ⟨(C9_coordinate_roundtrip 7).1 (by decide), (C9_coordinate_roundtrip (-3)).2 (by decide)⟩

/-! ## Breakpoint sync payload: C1 -/

theorem alookup_eq_none_iff_not_mem {α β : Type} [DecidableEq α] {k : α} :
    ∀ {l : List (α × β)}, alookup k l = none ↔ k ∉ l.map Prod.fst := by
  intro l
  constructor
  · intro h hmem
    induction l with
    | nil => simp at hmem
    | cons p rest ih =>
      obtain ⟨a, b⟩ := p
      simp only [alookup] at h
      simp only [List.map_cons, List.mem_cons] at hmem
      by_cases he : a = k
      · rw [if_pos he] at h; exact Option.noConfusion h
      · rw [if_neg he] at h
        rcases hmem with hmem | hmem
        · exact he hmem.symm
        · exact ih h hmem
  · exact alookup_eq_none_of_not_mem

theorem mem_keys_filterMap_dapFileEntry (bps : List (Nat × BreakpointInfo)) :
    ∀ (l : List (String × List Nat)) (a : String),
      a ∈ (l.filterMap (dapFileEntry bps)).map Prod.fst → a ∈ l.map Prod.fst := by
  intro l
  induction l with
  | nil => intro a h; simp at h
  | cons p rest ih =>
    intro a h
    rw [List.filterMap_cons] at h
    match hfe : dapFileEntry bps p with
    | none =>
      rw [hfe] at h
      exact List.mem_cons_of_mem _ (ih a h)
    | some q =>
      rw [hfe] at h
      simp only [List.map_cons, List.mem_cons] at h
      rcases h with h | h
      · have hq : q.1 = p.1 := by
          simp only [dapFileEntry] at hfe
          split at hfe
          · exact Option.noConfusion hfe
          · cases hfe; rfl
        simp [h, hq]
      · exact List.mem_cons_of_mem _ (ih a h)

theorem alookup_filterMap_dapFileEntry (bps : List (Nat × BreakpointInfo))
    (f : String) :
    ∀ (l : List (String × List Nat)), (l.map Prod.fst).Nodup →
    alookup f (l.filterMap (dapFileEntry bps)) =
      (match alookup f l with
       | none => none
       | some ids =>
          if (dapEntriesOf bps ids).isEmpty then none
          else some (dapEntriesOf bps ids)) := by
  intro l
  induction l with
  | nil => intro _; rfl
  | cons p rest ih =>
    intro hnd
    obtain ⟨g, ids⟩ := p
    simp only [List.map_cons, List.nodup_cons] at hnd
    rw [List.filterMap_cons]
    by_cases hE : (dapEntriesOf bps ids).isEmpty
    · have hfe : dapFileEntry bps (g, ids) = none := by
        simp only [dapFileEntry]
        rw [if_pos hE]
      rw [hfe]
      by_cases hgf : g = f
      · subst hgf
        have hnone : alookup g (rest.filterMap (dapFileEntry bps)) = none := by
          apply alookup_eq_none_of_not_mem
          intro hmem
          exact hnd.1 (mem_keys_filterMap_dapFileEntry bps rest g hmem)
        rw [hnone]
        simp [alookup, hE]
      · rw [ih hnd.2]
        simp [alookup, hgf]
    · have hfe : dapFileEntry bps (g, ids) =
          some (g, dapEntriesOf bps ids) := by
        simp only [dapFileEntry]
        rw [if_neg hE]
      rw [hfe]
      by_cases hgf : g = f
      · subst hgf
        simp [alookup, hE]
      · rw [show alookup f ((g, dapEntriesOf bps ids) ::
            rest.filterMap (dapFileEntry bps)) =
            alookup f (rest.filterMap (dapFileEntry bps)) by
          simp only [alookup]; rw [if_neg hgf]]
        rw [ih hnd.2]
        simp [alookup, hgf]

/-- Claim C1 (amended): for every breakpoint-manager state with distinct
per-file entries, the sync payload of a file is exactly that file's
enabled breakpoints mapped to wire-ready fields — condition, hitCondition
and logMessage copied, and the line copied UNCHANGED from the stored
1-based value (the code performs no 0-based conversion here); a file
with no enabled breakpoints contributes no entry. -/
theorem C1_sync_payload_keeps_stored_line (st : BPState) (f : String)
    (hnd : (st.byFile.map Prod.fst).Nodup) :
    alookup f (getBreakpointsForDap st) =
      (if (((getByFile st f).filter (fun bp => bp.enabled)).map toDapEntry).isEmpty
       then none
       else some (((getByFile st f).filter (fun bp => bp.enabled)).map toDapEntry)) := by
  have h := alookup_filterMap_dapFileEntry st.breakpoints f st.byFile hnd
  rw [getBreakpointsForDap, h]
  unfold getByFile
  match halk : alookup f st.byFile with
  | none => simp
  | some ids => simp [dapEntriesOf]

/-- Witness for C1 (amended) at the claim scenario state: the payload for
the file has exactly two entries, both with the stored line 5 and not
the 0-based 4, and no entry for the disabled line-9 breakpoint. -/
theorem C1_witness :
    alookup "main.py" (getBreakpointsForDap c1state) =
      some [⟨5, none, none, none⟩, ⟨5, none, none, none⟩] :=
  (C1_sync_payload_keeps_stored_line c1state "main.py" (by decide)).trans (by decide)

/-- Counterexample to C1 as stated: in the scenario state the two
returned entries carry line 5 (the stored 1-based line), not the 0-based
line 4 the claim asserts. -/
theorem C1_counterexample :
    (getBreakpointsForDap c1state).map (fun p => (p.1, p.2.map DapBreakpoint.line)) =
      [("main.py", [5, 5])] ∧
    ¬ (∀ p ∈ getBreakpointsForDap c1state, ∀ e ∈ p.2, e.line = 4) := by
  constructor
  · decide
  · decide

/-! ## Session idle eviction: C6 -/

theorem alookup_cleanup_keep {timeout now : Nat} :
    ∀ {st : SStore} {id la : Nat},
      alookup id st = some la → now - la ≤ timeout →
      alookup id (cleanupStore timeout st now) = some la := by
  intro st
  induction st with
  | nil => intro id la h; simp [alookup] at h
  | cons p rest ih =>
    obtain ⟨a, b⟩ := p
    intro id la h hle
    simp only [alookup] at h
    simp only [cleanupStore, List.filter_cons]
    by_cases ha : a = id
    · rw [if_pos ha] at h
      cases h
      rw [if_pos (by simpa using hle)]
      simp [alookup, ha]
    · rw [if_neg ha] at h
      by_cases hkeep : now - b ≤ timeout
      · rw [if_pos (by simpa using hkeep)]
        simp only [alookup]
        rw [if_neg ha]
        exact ih h hle
      · rw [if_neg (by simpa using hkeep)]
        exact ih h hle

theorem alookup_cleanup_expired {timeout now : Nat} :
    ∀ {st : SStore} {id la : Nat},
      (st.map Prod.fst).Nodup → alookup id st = some la → timeout < now - la →
      alookup id (cleanupStore timeout st now) = none := by
  intro st
  induction st with
  | nil => intro id la _ h; simp [alookup] at h
  | cons p rest ih =>
    obtain ⟨a, b⟩ := p
    intro id la hnd h hgt
    simp only [List.map_cons, List.nodup_cons] at hnd
    simp only [alookup] at h
    simp only [cleanupStore, List.filter_cons]
    by_cases ha : a = id
    · rw [if_pos ha] at h
      cases h
      rw [if_neg (by simp; omega)]
      apply alookup_eq_none_of_not_mem
      intro hmem
      apply hnd.1
      subst ha
      have : ∀ x ∈ (rest.filter (fun p => now - p.2 ≤ timeout)), x ∈ rest :=
        fun x hx => List.mem_of_mem_filter hx
      obtain ⟨q, hq, hqe⟩ := List.mem_map.mp hmem
      exact List.mem_map.mpr ⟨q, this q hq, hqe⟩
    · rw [if_neg ha] at h
      by_cases hkeep : now - b ≤ timeout
      · rw [if_pos (by simpa using hkeep)]
        simp only [alookup]
        rw [if_neg ha]
        exact ih hnd.2 h hgt
      · rw [if_neg (by simpa using hkeep)]
        exact ih hnd.2 h hgt

theorem alookup_refresh_self :
    ∀ {st : SStore} {id la : Nat} (now : Nat),
      alookup id st = some la → alookup id (refreshLa st id now) = some now := by
  intro st
  induction st with
  | nil => intro id la now h; simp [alookup] at h
  | cons p rest ih =>
    obtain ⟨a, b⟩ := p
    intro id la now h
    simp only [alookup] at h
    simp only [refreshLa, List.map_cons]
    by_cases ha : a = id
    · rw [if_pos ha] at h
      simp only [ha, if_pos rfl]
      simp [alookup]
    · rw [if_neg ha] at h
      simp only [if_neg ha]
      simp only [alookup]
      rw [if_neg ha]
      exact ih now h

theorem alookup_refresh_ne {j id : Nat} (hne : j ≠ id) :
    ∀ (st : SStore) (now : Nat),
      alookup id (refreshLa st j now) = alookup id st := by
  intro st
  induction st with
  | nil => intro now; rfl
  | cons p rest ih =>
    obtain ⟨a, b⟩ := p
    intro now
    simp only [refreshLa, List.map_cons]
    by_cases ha : a = j
    · simp only [if_pos ha]
      simp only [alookup]
      rw [if_neg (ha ▸ hne : a ≠ id), if_neg (ha ▸ hne : a ≠ id)]
      exact ih now
    · simp only [if_neg ha]
      simp only [alookup]
      by_cases hai : a = id
      · rw [if_pos hai, if_pos hai]
      · rw [if_neg hai, if_neg hai]
        exact ih now

theorem storeRun_survives (timeout id : Nat) :
    ∀ (ops : List (StoreOp × Nat)) (st : SStore) (la : Nat),
      alookup id st = some la → sweepSafe id timeout la ops = true →
      (alookup id (storeRun timeout st ops)).isSome = true := by
  intro ops
  induction ops with
  | nil =>
    intro st la h _
    simp [storeRun, h]
  | cons op rest ih =>
    intro st la h hsafe
    obtain ⟨o, t⟩ := op
    cases o with
    | access j =>
      simp only [sweepSafe] at hsafe
      simp only [storeRun, List.foldl_cons]
      by_cases hj : j = id
      · subst hj
        have hget : getSession st j t = .ok (refreshLa st j t, t) := by
          simp only [getSession, h]
        simp only [storeStep, hget]
        rw [if_pos rfl] at hsafe
        exact ih (refreshLa st j t) t (alookup_refresh_self t h) hsafe
      · rw [if_neg hj] at hsafe
        match hget : getSession st j t with
        | .error e =>
          simp only [storeStep, hget]
          exact ih st la h hsafe
        | .ok pr =>
          have hpr : pr = (refreshLa st j t, t) := by
            simp only [getSession] at hget
            match halk : alookup j st with
            | none => rw [halk] at hget; exact Except.noConfusion hget
            | some v =>
              rw [halk] at hget
              cases hget
              rfl
          simp only [storeStep, hget, hpr]
          refine ih (refreshLa st j t) la ?_ hsafe
          rw [alookup_refresh_ne hj st t]
          exact h
    | sweep =>
      simp only [sweepSafe, Bool.and_eq_true, decide_eq_true_eq] at hsafe
      simp only [storeRun, List.foldl_cons, storeStep]
      exact ih (cleanupStore timeout st t) la
        (alookup_cleanup_keep h hsafe.1) hsafe.2

/-- Claim C6: a session whose idle time strictly exceeds the timeout at a
sweep is deleted and a subsequent get fails with SessionNotFound; a
session accessed within the timeout survives a sweep with its
lastAccessedAt intact; get refreshes lastAccessedAt; and along any trace
of accesses and sweeps in which every sweep happens within the timeout of
the last access, the session is never evicted. -/
theorem C6_session_idle_eviction (timeout : Nat) (st : SStore)
    (id la now t2 : Nat) (ops : List (StoreOp × Nat)) :
    ((st.map Prod.fst).Nodup → alookup id st = some la → timeout < now - la →
      alookup id (cleanupStore timeout st now) = none ∧
      getSession (cleanupStore timeout st now) id t2 = .error .sessionNotFound) ∧
    (alookup id st = some la → now - la ≤ timeout →
      alookup id (cleanupStore timeout st now) = some la) ∧
    (alookup id st = some la →
      getSession st id now = .ok (refreshLa st id now, now) ∧
      alookup id (refreshLa st id now) = some now) ∧
    (alookup id st = some la → sweepSafe id timeout la ops = true →
      (alookup id (storeRun timeout st ops)).isSome = true) := by
  refine ⟨?_, ?_, ?_, ?_⟩
  · intro hnd h hgt
    have hnone := alookup_cleanup_expired hnd h hgt
    refine ⟨hnone, ?_⟩
    simp only [getSession, hnone]
  · intro h hle
    exact alookup_cleanup_keep h hle
  · intro h
    constructor
    · simp only [getSession, h]
    · exact alookup_refresh_self now h
  · intro h hsafe
    exact storeRun_survives timeout id ops st la h hsafe

/-- Witness for C6 with timeout 10 and one session with id 7 last
accessed at time 100: the sweep at time 115 evicts it and get then fails
with SessionNotFound; the sweep at time 105 keeps it; an access at 108
followed by a sweep at 115 keeps it alive. -/
theorem C6_witness :
    (alookup 7 (cleanupStore 10 [(7, 100)] 115) = none ∧
      getSession (cleanupStore 10 [(7, 100)] 115) 7 120 =
        .error .sessionNotFound) ∧
    alookup 7 (cleanupStore 10 [(7, 100)] 105) = some 100 ∧
    (alookup 7 (storeRun 10 [(7, 100)]
      [(.access 7, 108), (.sweep, 115)])).isSome = true := by
  refine ⟨?_, ?_, ?_⟩
  · exact (C6_session_idle_eviction 10 [(7, 100)] 7 100 115 120 []).1
      (by decide) (by decide) (by decide)
  · exact (C6_session_idle_eviction 10 [(7, 100)] 7 100 105 0 []).2.1
      (by decide) (by decide)
  · exact (C6_session_idle_eviction 10 [(7, 100)] 7 100 0 0
      [(.access 7, 108), (.sweep, 115)]).2.2.2 (by decide) (by decide)

/-! ## Debug step orchestration: C5 -/

/-- Claim C5: after the action is issued, no stop event within the
5000 ms primary wait leads to a pause request for the same thread and a
2000 ms secondary wait; if that also yields no stop event the operation
fails with a timeout; if a stop event arrives by either path the
orchestrator issues, in order, a stack-trace request, a scopes request
for the top frame and a variables request for the top scope, and returns
a DebugState with status stopped and the reason of the stop event. -/
theorem C5_step_orchestration (env : StepEnv) (a : StepAction) (topt : Option Nat) :
    (env.primaryStop = none → env.secondaryStop = none →
      lcpDebugStep env a topt =
        ([.action a (defaultThreadId topt), .waitStopped 5000,
          .pause (defaultThreadId topt), .waitStopped 2000], .timedOutFailure)) ∧
    (∀ ev f fr sc scr, env.primaryStop = some ev → env.frames = f :: fr →
      env.scopeList = sc :: scr →
      lcpDebugStep env a topt =
        ([.action a (defaultThreadId topt), .waitStopped 5000,
          .stackTrace ev.threadId, .scopes f.fid,
          .variables sc.variablesReference],
         .stopped ⟨"stopped", ev.reason, some f.line, f.sourcePath, f :: fr,
           env.vars⟩)) ∧
    (∀ ev f fr sc scr, env.primaryStop = none → env.secondaryStop = some ev →
      env.frames = f :: fr → env.scopeList = sc :: scr →
      lcpDebugStep env a topt =
        ([.action a (defaultThreadId topt), .waitStopped 5000,
          .pause (defaultThreadId topt), .waitStopped 2000,
          .stackTrace ev.threadId, .scopes f.fid,
          .variables sc.variablesReference],
         .stopped ⟨"stopped", ev.reason, some f.line, f.sourcePath, f :: fr,
           env.vars⟩)) := by
  refine ⟨?_, ?_, ?_⟩
  · intro h1 h2
    simp [lcpDebugStep, h1, h2]
  · intro ev f fr sc scr h1 h2 h3
    simp [lcpDebugStep, h1, getCurrentState, h2, h3]
  · intro ev f fr sc scr h1 h2 h3 h4
    simp [lcpDebugStep, h1, h2, getCurrentState, h3, h4]

/-- Witness for C5: with no stop event on either wait the step fails by
timeout after action, primary wait, pause and secondary wait; with a
breakpoint stop event and one frame, one scope and one variable the step
issues stack-trace, scopes and variables in order and returns the
stopped state with the event reason. -/
theorem C5_witness :
    lcpDebugStep ⟨none, none, [], [], []⟩ .next none =
      ([.action .next 1, .waitStopped 5000, .pause 1, .waitStopped 2000],
        .timedOutFailure) ∧
    lcpDebugStep
      ⟨some ⟨"breakpoint", 1⟩, none, [⟨0, "main", 53, 1, some "main.py"⟩],
        [⟨"Locals", 100⟩], [⟨"i", "7", some "int", none⟩]⟩ .cont (some 1) =
      ([.action .cont 1, .waitStopped 5000, .stackTrace 1, .scopes 0,
        .variables 100],
       .stopped ⟨"stopped", "breakpoint", some 53, some "main.py",
         [⟨0, "main", 53, 1, some "main.py"⟩], [⟨"i", "7", some "int", none⟩]⟩) := by
  constructor
  · exact ((C5_step_orchestration ⟨none, none, [], [], []⟩ .next none).1
      rfl rfl).trans (by decide)
  · exact ((C5_step_orchestration
      ⟨some ⟨"breakpoint", 1⟩, none, [⟨0, "main", 53, 1, some "main.py"⟩],
        [⟨"Locals", 100⟩], [⟨"i", "7", some "int", none⟩]⟩ .cont (some 1)).2.1
      ⟨"breakpoint", 1⟩ ⟨0, "main", 53, 1, some "main.py"⟩ [] ⟨"Locals", 100⟩ []
      rfl rfl rfl).trans (by decide)

/-! ## DAP disconnect: C7 -/

/-- Claim C7 (amended): on a client whose handshake flag is set,
`disconnect` terminates the owned process and clears the event bus, and
its result does not depend on whether the graceful disconnect request
succeeded or failed (the failure is swallowed, not propagated); a client
whose handshake flag is unset returns unchanged. -/
theorem C7_disconnect_releases (st : DAPClientState) (g g2 : GracefulOutcome) :
    (st.ready = true → disconnect st g = ⟨false, false, []⟩) ∧
    disconnect st g = disconnect st g2 ∧
    (st.ready = false → disconnect st g = st) := by
  refine ⟨?_, rfl, ?_⟩
  · intro h
    simp [disconnect, h]
  · intro h
    simp [disconnect, h]

/-- Witness for C7 (amended): a ready client with a live process and a
registered waiter is fully released even when the graceful request
failed. -/
theorem C7_witness :
    disconnect ⟨true, true, [⟨0, "stopped", 5000⟩]⟩ .failed =
      ⟨false, false, []⟩ :=
  (C7_disconnect_releases ⟨true, true, [⟨0, "stopped", 5000⟩]⟩ .failed .ok).1 rfl

/-- Counterexample to C7 as stated: a client whose process was started
but whose handshake flag is still unset (for example when the initialize
request failed) returns from `disconnect` without terminating the process
or clearing the event bus — the release is not unconditional. -/
theorem C7_counterexample :
    (disconnect ⟨false, true, [⟨0, "stopped", 5000⟩]⟩ .ok).processAlive = true ∧
    disconnect ⟨false, true, [⟨0, "stopped", 5000⟩]⟩ .ok =
      ⟨false, true, [⟨0, "stopped", 5000⟩]⟩ := by
  constructor
  · decide
  · decide

/-! ## Frame codec: digit and header lemmas for C3 -/

theorem digitChar_isDigit (d : Nat) : (digitChar d).isDigit = true := by
  unfold digitChar
  split <;> decide

theorem digitVal_digitChar (d : Nat) (h : d < 10) : digitVal (digitChar d) = d := by
  interval_cases d <;> decide

theorem natDigits_ne_nil (n : Nat) : natDigits n ≠ [] := by
  rw [natDigits]
  split
  · simp
  · simp

theorem natDigits_digits (n : Nat) : ∀ c ∈ natDigits n, c.isDigit = true := by
  induction n using Nat.strong_induction_on with
  | _ n ih =>
    rw [natDigits]
    split
    · intro c hc
      simp only [List.mem_singleton] at hc
      subst hc
      exact digitChar_isDigit n
    case isFalse h =>
      intro c hc
      rw [List.mem_append] at hc
      rcases hc with hc | hc
      · exact ih (n / 10) (Nat.div_lt_self (by omega) (by omega)) c hc
      · simp only [List.mem_singleton] at hc
        subst hc
        exact digitChar_isDigit _

theorem digitsToNat_append_digit (l : List Char) (c : Char) :
    digitsToNat (l ++ [c]) = 10 * digitsToNat l + digitVal c := by
  simp [digitsToNat, List.foldl_append]

theorem digitsToNat_natDigits (n : Nat) : digitsToNat (natDigits n) = n := by
  induction n using Nat.strong_induction_on with
  | _ n ih =>
    rw [natDigits]
    split
    case isTrue h =>
      simp only [digitsToNat, List.foldl_cons, List.foldl_nil]
      rw [Nat.mul_zero, Nat.zero_add]
      exact digitVal_digitChar n h
    case isFalse h =>
      rw [digitsToNat_append_digit,
        ih (n / 10) (Nat.div_lt_self (by omega) (by omega)),
        digitVal_digitChar (n % 10) (Nat.mod_lt _ (by omega))]
      omega

theorem isDigit_ne_cr {c : Char} (h : c.isDigit = true) : c ≠ '\r' := by
  rintro rfl
  exact absurd h (by decide)

theorem isDigit_ne_lf {c : Char} (h : c.isDigit = true) : c ≠ '\n' := by
  rintro rfl
  exact absurd h (by decide)

theorem cr_not_mem_headerPrefix : '\r' ∉ headerPrefix := by decide

theorem lf_not_mem_headerPrefix : '\n' ∉ headerPrefix := by decide

theorem stripPrefixCL_append (p : List Char) :
    ∀ s, stripPrefixCL p (p ++ s) = some s := by
  induction p with
  | nil => intro s; rfl
  | cons c cs ih =>
    intro s
    simp only [List.cons_append, stripPrefixCL, if_pos rfl]
    exact ih s

theorem stripPrefixCL_eq_some (p : List Char) :
    ∀ {s r : List Char}, stripPrefixCL p s = some r → s = p ++ r := by
  induction p with
  | nil =>
    intro s r h
    simp only [stripPrefixCL] at h
    cases h
    rfl
  | cons c cs ih =>
    intro s r h
    cases s with
    | nil => exact absurd h (by simp [stripPrefixCL])
    | cons a as =>
      simp only [stripPrefixCL] at h
      by_cases he : a = c
      · rw [if_pos he] at h
        subst he
        rw [List.cons_append, ih h]
      · rw [if_neg he] at h
        exact Option.noConfusion h

theorem takeWhile_append_all {p : Char → Bool} :
    ∀ (l1 l2 : List Char), (∀ c ∈ l1, p c = true) →
      (l1 ++ l2).takeWhile p = l1 ++ l2.takeWhile p := by
  intro l1
  induction l1 with
  | nil => intro l2 _; rfl
  | cons c cs ih =>
    intro l2 hall
    have hc : p c = true := hall c (List.mem_cons_self _ _)
    simp only [List.cons_append, List.takeWhile_cons, hc, if_pos]
    rw [ih l2 (fun x hx => hall x (List.mem_cons_of_mem _ hx))]

theorem dropWhile_append_all {p : Char → Bool} :
    ∀ (l1 l2 : List Char), (∀ c ∈ l1, p c = true) →
      (l1 ++ l2).dropWhile p = l2.dropWhile p := by
  intro l1
  induction l1 with
  | nil => intro l2 _; rfl
  | cons c cs ih =>
    intro l2 hall
    have hc : p c = true := hall c (List.mem_cons_self _ _)
    simp only [List.cons_append, List.dropWhile_cons, hc, if_pos]
    exact ih l2 (fun x hx => hall x (List.mem_cons_of_mem _ hx))

theorem matchHeaderHere_encode (n : Nat) (rest0 : List Char) :
    matchHeaderHere (headerPrefix ++ (natDigits n ++ '\r' :: '\n' :: rest0)) =
      some n := by
  have h1 : stripPrefixCL headerPrefix
      (headerPrefix ++ (natDigits n ++ '\r' :: '\n' :: rest0)) =
      some (natDigits n ++ '\r' :: '\n' :: rest0) := stripPrefixCL_append _ _
  have htake : (natDigits n ++ '\r' :: '\n' :: rest0).takeWhile Char.isDigit =
      natDigits n := by
    rw [takeWhile_append_all _ _ (natDigits_digits n)]
    simp [List.takeWhile_cons]
  have hdrop : (natDigits n ++ '\r' :: '\n' :: rest0).dropWhile Char.isDigit =
      '\r' :: '\n' :: rest0 := by
    rw [dropWhile_append_all _ _ (natDigits_digits n)]
    simp [List.dropWhile_cons]
  obtain ⟨d, ds, hD⟩ : ∃ d ds, natDigits n = d :: ds := by
    cases hN : natDigits n with
    | nil => exact absurd hN (natDigits_ne_nil n)
    | cons d ds => exact ⟨d, ds, rfl⟩
  unfold matchHeaderHere
  rw [h1]
  dsimp only
  rw [htake, hdrop, hD]
  show some (digitsToNat (d :: ds)) = some n
  rw [← hD, digitsToNat_natDigits]

theorem lf_mem_of_matchHeaderHere_some {s : List Char} {n : Nat}
    (h : matchHeaderHere s = some n) : '\n' ∈ s := by
  unfold matchHeaderHere at h
  cases hs : stripPrefixCL headerPrefix s with
  | none => rw [hs] at h; exact Option.noConfusion h
  | some rest =>
    rw [hs] at h
    dsimp only at h
    have hres : s = headerPrefix ++ rest := stripPrefixCL_eq_some _ hs
    have hsplit : rest.takeWhile Char.isDigit ++ rest.dropWhile Char.isDigit =
        rest := List.takeWhile_append_dropWhile _ _
    split at h
    · exact Option.noConfusion h
    case _ d ds tail heq1 heq2 =>
      have hlf : '\n' ∈ rest := by
        rw [← hsplit, heq2]
        simp
      rw [hres]
      exact List.mem_append_right _ hlf
    · exact Option.noConfusion h

theorem firstHeaderLen_of_here {s : List Char} {n : Nat}
    (h : matchHeaderHere s = some n) : firstHeaderLen s = some n := by
  cases s with
  | nil =>
    rw [show matchHeaderHere [] = none from rfl] at h
    exact Option.noConfusion h
  | cons c rest => simp only [firstHeaderLen, h]

theorem firstHeaderLen_none_of_no_lf {s : List Char} (h : '\n' ∉ s) :
    firstHeaderLen s = none := by
  induction s with
  | nil => rfl
  | cons c rest ih =>
    have hm : matchHeaderHere (c :: rest) = none := by
      cases hmm : matchHeaderHere (c :: rest) with
      | none => rfl
      | some n => exact absurd (lf_mem_of_matchHeaderHere_some hmm) h
    simp only [firstHeaderLen, hm]
    exact ih (fun hx => h (List.mem_cons_of_mem _ hx))

theorem indexOfSeq_append_not_mem {p0 : Char} {pr : List Char} :
    ∀ (l s : List Char), p0 ∉ l →
      indexOfSeq (p0 :: pr) (l ++ s) =
        (indexOfSeq (p0 :: pr) s).map (· + l.length) := by
  intro l
  induction l with
  | nil =>
    intro s _
    simp only [List.nil_append, List.length_nil]
    cases h : indexOfSeq (p0 :: pr) s <;> simp [h]
  | cons c l ih =>
    intro s hmem
    have hc : ¬ c = p0 := fun he => hmem (by simp [he])
    have hpre : ((p0 :: pr).isPrefixOf (c :: (l ++ s))) = false := by
      cases hp : (p0 :: pr).isPrefixOf (c :: (l ++ s)) with
      | false => rfl
      | true =>
        obtain ⟨t, ht⟩ := List.isPrefixOf_iff_prefix.mp hp
        rw [List.cons_append] at ht
        exact absurd (List.head_eq_of_cons_eq ht).symm hc
    rw [List.cons_append]
    simp only [indexOfSeq, hpre, Bool.false_eq_true, if_false]
    rw [ih s (fun hx => hmem (List.mem_cons_of_mem _ hx))]
    cases indexOfSeq (p0 :: pr) s <;> simp [Nat.add_assoc]

theorem indexOfSeq_self {pat : List Char} (hne : pat ≠ []) (t : List Char) :
    indexOfSeq pat (pat ++ t) = some 0 := by
  cases pat with
  | nil => exact absurd rfl hne
  | cons p0 pr =>
    have hpre : ((p0 :: pr).isPrefixOf ((p0 :: pr) ++ t)) = true :=
      List.isPrefixOf_iff_prefix.mpr (List.prefix_append _ _)
    rw [List.cons_append] at hpre ⊢
    simp only [indexOfSeq, hpre, if_true]

theorem extractLoop_nil : extractLoop [] = ([], []) := by
  unfold extractLoop
  rfl

/-- A buffer beginning with one complete framed message whose body
measures the same in UTF-8 bytes and code units (an ASCII body) yields
that message and continues on the rest of the buffer. -/
theorem extractLoop_encode_append (b t : List Char)
    (hb : utf8Length b = b.length) :
    extractLoop (encodeMsg b ++ t) =
      ((b :: (extractLoop t).1), (extractLoop t).2) := by
  have hshape1 : encodeMsg b ++ t =
      headerPrefix ++ (natDigits b.length ++
        '\r' :: '\n' :: ('\r' :: '\n' :: (b ++ t))) := by
    simp [encodeMsg, hb, List.append_assoc]
  have h1 : firstHeaderLen (encodeMsg b ++ t) = some b.length := by
    rw [hshape1]
    exact firstHeaderLen_of_here
      (matchHeaderHere_encode b.length ('\r' :: '\n' :: (b ++ t)))
  have hnoCR : '\r' ∉ headerPrefix ++ natDigits b.length := by
    intro hmem
    rcases List.mem_append.mp hmem with hm | hm
    · exact cr_not_mem_headerPrefix hm
    · exact isDigit_ne_cr (natDigits_digits _ _ hm) rfl
  have hshape2 : encodeMsg b ++ t =
      (headerPrefix ++ natDigits b.length) ++ (crlf2 ++ (b ++ t)) := by
    simp [encodeMsg, hb, crlf2, List.append_assoc]
  have h2 : indexOfSeq crlf2 (encodeMsg b ++ t) =
      some ((headerPrefix ++ natDigits b.length).length) := by
    rw [hshape2]
    rw [show (crlf2 : List Char) = '\r' :: ['\n', '\r', '\n'] from rfl]
    rw [indexOfSeq_append_not_mem _ _ hnoCR]
    rw [show ('\r' :: ['\n', '\r', '\n'] : List Char) = crlf2 from rfl]
    rw [indexOfSeq_self (by simp [crlf2]) (b ++ t)]
    simp
  have hlen : (encodeMsg b ++ t).length =
      (headerPrefix ++ natDigits b.length).length + 4 + b.length + t.length := by
    simp [encodeMsg, hb, crlf2]
    omega
  have hdrop1 : (encodeMsg b ++ t).drop
      ((headerPrefix ++ natDigits b.length).length + 4) = b ++ t := by
    rw [show encodeMsg b ++ t =
        ((headerPrefix ++ natDigits b.length) ++ crlf2) ++ (b ++ t) by
      simp [encodeMsg, hb, crlf2, List.append_assoc]]
    rw [show (headerPrefix ++ natDigits b.length).length + 4 =
        ((headerPrefix ++ natDigits b.length) ++ crlf2).length by
      simp [crlf2]; omega]
    exact List.drop_left _ _
  have hdrop2 : (encodeMsg b ++ t).drop
      ((headerPrefix ++ natDigits b.length).length + 4 + b.length) = t := by
    rw [show encodeMsg b ++ t =
        (((headerPrefix ++ natDigits b.length) ++ crlf2) ++ b) ++ t by
      simp [encodeMsg, hb, crlf2, List.append_assoc]]
    rw [show (headerPrefix ++ natDigits b.length).length + 4 + b.length =
        (((headerPrefix ++ natDigits b.length) ++ crlf2) ++ b).length by
      simp [crlf2]; omega]
    exact List.drop_left _ _
  rw [extractLoop]
  rw [h1, h2]
  dsimp only
  rw [dif_neg (by omega)]
  rw [hdrop1, hdrop2, List.take_left]

/-- Round trip of the codec: decoding an encoded message yields exactly
that message with nothing left in the buffer. -/
theorem extractLoop_encode (b : List Char) (hb : utf8Length b = b.length) :
    extractLoop (encodeMsg b) = ([b], []) := by
  have h := extractLoop_encode_append b [] hb
  rw [List.append_nil] at h
  rw [h, extractLoop_nil]

theorem cr_not_mem_header_digits (n : Nat) :
    '\r' ∉ headerPrefix ++ natDigits n := by
  intro hmem
  rcases List.mem_append.mp hmem with hm | hm
  · exact cr_not_mem_headerPrefix hm
  · exact isDigit_ne_cr (natDigits_digits _ _ hm) rfl

theorem lf_not_mem_header_digits (n : Nat) :
    '\n' ∉ headerPrefix ++ natDigits n := by
  intro hmem
  rcases List.mem_append.mp hmem with hm | hm
  · exact lf_not_mem_headerPrefix hm
  · exact isDigit_ne_lf (natDigits_digits _ _ hm) rfl

/-- A strict prefix of one framed message extracts nothing: the buffer is
left intact waiting for the missing data. -/
theorem extractLoop_take_encode (b : List Char) (k : Nat)
    (hk : k < (encodeMsg b).length) (hb : utf8Length b = b.length) :
    extractLoop ((encodeMsg b).take k) = ([], (encodeMsg b).take k) := by
  have hE : encodeMsg b = (headerPrefix ++ natDigits b.length) ++
      ('\r' :: '\n' :: '\r' :: '\n' :: b) := by
    simp [encodeMsg, hb, List.append_assoc]
  have hA := List.length_append headerPrefix (natDigits b.length)
  have hElen : (encodeMsg b).length =
      (headerPrefix ++ natDigits b.length).length + 4 + b.length := by
    rw [hE]; simp; omega
  have hz : k ≤ (headerPrefix ++ natDigits b.length).length + 1 ∨
      k = (headerPrefix ++ natDigits b.length).length + 2 ∨
      k = (headerPrefix ++ natDigits b.length).length + 3 ∨
      ((headerPrefix ++ natDigits b.length).length + 4 ≤ k) := by omega
  rcases hz with hz | hz | hz | hz
  · -- zone 1: the prefix ends inside the header line, before its LF LF
    have hpre : (encodeMsg b).take k =
        ((headerPrefix ++ natDigits b.length) ++ ['\r']).take k := by
      rw [hE]
      rw [show (headerPrefix ++ natDigits b.length) ++
          ('\r' :: '\n' :: '\r' :: '\n' :: b) =
          ((headerPrefix ++ natDigits b.length) ++ ['\r']) ++
            ('\n' :: '\r' :: '\n' :: b) by simp [List.append_assoc]]
      rw [List.take_append_eq_append_take]
      rw [show k - ((headerPrefix ++ natDigits b.length) ++ ['\r']).length = 0 by
        simp; omega]
      simp
    have hnoLF : '\n' ∉ (encodeMsg b).take k := by
      rw [hpre]
      intro hmem
      have hsub := List.take_subset _ _ hmem
      rcases List.mem_append.mp hsub with hm | hm
      · exact lf_not_mem_header_digits b.length hm
      · simp at hm
    rw [extractLoop, firstHeaderLen_none_of_no_lf hnoLF]
  · -- zone 2: the prefix ends right after CR LF
    have htk : (encodeMsg b).take k =
        (headerPrefix ++ natDigits b.length) ++ ['\r', '\n'] := by
      rw [hE, List.take_append_eq_append_take,
        List.take_of_length_le (by omega),
        show k - (headerPrefix ++ natDigits b.length).length = 0 + 1 + 1 by omega]
      simp [List.take_succ_cons]
    have hidx : indexOfSeq crlf2 ((encodeMsg b).take k) = none := by
      rw [htk]
      rw [show (crlf2 : List Char) = '\r' :: ['\n', '\r', '\n'] from rfl]
      rw [indexOfSeq_append_not_mem _ _ (cr_not_mem_header_digits b.length)]
      rw [show indexOfSeq ('\r' :: ['\n', '\r', '\n']) ['\r', '\n'] = none from rfl]
      rfl
    rw [extractLoop]
    cases hfh : firstHeaderLen ((encodeMsg b).take k) with
    | none => rfl
    | some L => rw [hidx]
  · -- zone 3: the prefix ends after CR LF CR
    have htk : (encodeMsg b).take k =
        (headerPrefix ++ natDigits b.length) ++ ['\r', '\n', '\r'] := by
      rw [hE, List.take_append_eq_append_take,
        List.take_of_length_le (by omega),
        show k - (headerPrefix ++ natDigits b.length).length = 0 + 1 + 1 + 1 by
          omega]
      simp [List.take_succ_cons]
    have hidx : indexOfSeq crlf2 ((encodeMsg b).take k) = none := by
      rw [htk]
      rw [show (crlf2 : List Char) = '\r' :: ['\n', '\r', '\n'] from rfl]
      rw [indexOfSeq_append_not_mem _ _ (cr_not_mem_header_digits b.length)]
      rw [show indexOfSeq ('\r' :: ['\n', '\r', '\n']) ['\r', '\n', '\r'] = none
        from rfl]
      rfl
    rw [extractLoop]
    cases hfh : firstHeaderLen ((encodeMsg b).take k) with
    | none => rfl
    | some L => rw [hidx]
  · -- zone 4: the full header arrived but the body is still short
    obtain ⟨j, hj, hjlt⟩ : ∃ j,
        k = (headerPrefix ++ natDigits b.length).length + 4 + j ∧
        j < b.length := ⟨k - ((headerPrefix ++ natDigits b.length).length + 4),
          by omega, by omega⟩
    have htk : (encodeMsg b).take k =
        (headerPrefix ++ natDigits b.length) ++
          ('\r' :: '\n' :: '\r' :: '\n' :: b.take j) := by
      rw [hE, List.take_append_eq_append_take,
        List.take_of_length_le (by omega),
        show k - (headerPrefix ++ natDigits b.length).length = j + 1 + 1 + 1 + 1
          by omega]
      simp [List.take_succ_cons]
    have h1 : firstHeaderLen ((encodeMsg b).take k) = some b.length := by
      rw [htk]
      rw [show (headerPrefix ++ natDigits b.length) ++
          ('\r' :: '\n' :: '\r' :: '\n' :: b.take j) =
          headerPrefix ++ (natDigits b.length ++
            '\r' :: '\n' :: ('\r' :: '\n' :: b.take j)) by
        simp [List.append_assoc]]
      exact firstHeaderLen_of_here (matchHeaderHere_encode _ _)
    have h2 : indexOfSeq crlf2 ((encodeMsg b).take k) =
        some ((headerPrefix ++ natDigits b.length).length) := by
      rw [htk]
      rw [show (crlf2 : List Char) = '\r' :: ['\n', '\r', '\n'] from rfl]
      rw [indexOfSeq_append_not_mem _ _ (cr_not_mem_header_digits b.length)]
      rw [show ('\r' :: '\n' :: '\r' :: '\n' :: b.take j : List Char) =
          crlf2 ++ b.take j from rfl]
      rw [show ('\r' :: ['\n', '\r', '\n'] : List Char) = crlf2 from rfl]
      rw [indexOfSeq_self (by simp [crlf2]) (b.take j)]
      simp
    have hlen2 : ((encodeMsg b).take k).length = k := by
      rw [List.length_take]
      omega
    rw [extractLoop, h1, h2]
    dsimp only
    rw [dif_pos (by omega)]

/-- An ASCII body measures the same in UTF-8 bytes and UTF-16 code
units, so for it `Buffer.byteLength` agrees with the code-unit length
the extraction loop compares against. -/
theorem ascii_utf8Length {b : List Char} (h : ∀ c ∈ b, c.toNat < 128) :
    utf8Length b = b.length := by
  induction b with
  | nil => rfl
  | cons c rest ih =>
    have hc : utf8Len c = 1 := by
      have hcm := h c (List.mem_cons_self _ _)
      simp only [utf8Len]
      rw [if_pos (by omega)]
    have hr := ih (fun x hx => h x (List.mem_cons_of_mem _ hx))
    simp only [utf8Length, List.map_cons, List.sum_cons, List.length_cons,
      hc] at hr ⊢
    omega

/-- Claim C3 (amended): for bodies made of ASCII characters — where the
UTF-8 byte count written by `sendRequest` equals the code-unit length
`handleData` compares — the codec round-trips, and for every pair of
such messages and every offset at which the concatenation of their
encodings is split into two chunks fed to `handleData` in order, the
client parses exactly the two messages in order with nothing merged,
dropped or left over.  (For a non-ASCII body the two units differ and
the client mis-frames; see the counterexample.) -/
theorem C3_frame_codec (b1 b2 : List Char) (k : Nat)
    (ha1 : ∀ c ∈ b1, c.toNat < 128) (ha2 : ∀ c ∈ b2, c.toNat < 128) :
    extractLoop (encodeMsg b1) = ([b1], []) ∧
    feedChunks [(encodeMsg b1 ++ encodeMsg b2).take k,
                (encodeMsg b1 ++ encodeMsg b2).drop k] = ([b1, b2], []) := by
  have hb1 : utf8Length b1 = b1.length := ascii_utf8Length ha1
  have hb2 : utf8Length b2 = b2.length := ascii_utf8Length ha2
  refine ⟨extractLoop_encode b1 hb1, ?_⟩
  have hfull : extractLoop (encodeMsg b1 ++ encodeMsg b2) = ([b1, b2], []) := by
    rw [extractLoop_encode_append b1 _ hb1, extractLoop_encode b2 hb2]
  by_cases hk1 : (encodeMsg b1 ++ encodeMsg b2).length ≤ k
  · rw [List.take_of_length_le hk1, List.drop_eq_nil_of_le hk1]
    simp only [feedChunks, List.foldl_cons, List.foldl_nil, feedChunk,
      List.nil_append, List.append_nil, hfull, extractLoop_nil]
  · by_cases hk2 : k < (encodeMsg b1).length
    · have htake : (encodeMsg b1 ++ encodeMsg b2).take k =
          (encodeMsg b1).take k := by
        rw [List.take_append_eq_append_take,
          show k - (encodeMsg b1).length = 0 by omega]
        simp
      have hdrop : (encodeMsg b1 ++ encodeMsg b2).drop k =
          (encodeMsg b1).drop k ++ encodeMsg b2 := by
        rw [List.drop_append_eq_append_drop,
          show k - (encodeMsg b1).length = 0 by omega]
        simp
      simp only [feedChunks, List.foldl_cons, List.foldl_nil, feedChunk,
        List.nil_append]
      rw [htake, extractLoop_take_encode b1 k hk2 hb1, hdrop]
      simp only []
      rw [show (encodeMsg b1).take k ++ ((encodeMsg b1).drop k ++ encodeMsg b2) =
          encodeMsg b1 ++ encodeMsg b2 by
        rw [← List.append_assoc, List.take_append_drop]]
      rw [hfull]
      rfl
    · have hn1 : (encodeMsg b1).length ≤ k := by omega
      have hk3 : k - (encodeMsg b1).length < (encodeMsg b2).length := by
        have := List.length_append (encodeMsg b1) (encodeMsg b2)
        omega
      have htake : (encodeMsg b1 ++ encodeMsg b2).take k =
          encodeMsg b1 ++ (encodeMsg b2).take (k - (encodeMsg b1).length) := by
        rw [List.take_append_eq_append_take, List.take_of_length_le hn1]
      have hdrop : (encodeMsg b1 ++ encodeMsg b2).drop k =
          (encodeMsg b2).drop (k - (encodeMsg b1).length) := by
        rw [List.drop_append_eq_append_drop, List.drop_eq_nil_of_le hn1]
        simp
      simp only [feedChunks, List.foldl_cons, List.foldl_nil, feedChunk,
        List.nil_append]
      rw [htake,
        extractLoop_encode_append b1
          ((encodeMsg b2).take (k - (encodeMsg b1).length)) hb1,
        extractLoop_take_encode b2 _ hk3 hb2, hdrop]
      simp only []
      rw [List.take_append_drop, extractLoop_encode b2 hb2]
      rfl

/-- Witness for C3 (amended) at two concrete ASCII bodies and the split
offset 7, which falls inside the first header line. -/
theorem C3_witness :
    (∀ c ∈ (['a', 'b'] : List Char), c.toNat < 128) ∧
    (∀ c ∈ (['c', 'd', 'e', 'f'] : List Char), c.toNat < 128) ∧
    feedChunks [(encodeMsg ['a', 'b'] ++ encodeMsg ['c', 'd', 'e', 'f']).take 7,
                (encodeMsg ['a', 'b'] ++ encodeMsg ['c', 'd', 'e', 'f']).drop 7] =
      ([['a', 'b'], ['c', 'd', 'e', 'f']], []) :=
  ⟨by decide, by decide,
    (C3_frame_codec ['a', 'b'] ['c', 'd', 'e', 'f'] 7 (by decide) (by decide)).2⟩

theorem natDigits_two : natDigits 2 = ['2'] := by
  rw [natDigits]
  rfl

theorem natDigits_one : natDigits 1 = ['1'] := by
  rw [natDigits]
  rfl

theorem encodeMsg_eacute : encodeMsg ['é'] =
    headerPrefix ++ ('2' :: '\r' :: '\n' :: '\r' :: '\n' :: ['é']) := by
  simp only [encodeMsg]
  rw [show utf8Length ['é'] = 2 from by decide, natDigits_two]
  rfl

theorem encodeMsg_x : encodeMsg ['x'] =
    headerPrefix ++ ('1' :: '\r' :: '\n' :: '\r' :: '\n' :: ['x']) := by
  simp only [encodeMsg]
  rw [show utf8Length ['x'] = 1 from by decide, natDigits_one]
  rfl

/-- The mis-framed parse of one non-ASCII message: the announced length
2 (UTF-8 bytes of the one-character body) exceeds the single available
code unit, so the extraction loop waits forever and never yields the
message. -/
theorem extractLoop_eacute :
    extractLoop (encodeMsg ['é']) = ([], encodeMsg ['é']) := by
  rw [encodeMsg_eacute]
  have h1 : firstHeaderLen
      (headerPrefix ++ ('2' :: '\r' :: '\n' :: '\r' :: '\n' :: ['é'])) =
      some 2 := by decide
  have h2 : indexOfSeq crlf2
      (headerPrefix ++ ('2' :: '\r' :: '\n' :: '\r' :: '\n' :: ['é'])) =
      some 17 := by decide
  rw [extractLoop, h1, h2]
  dsimp only
  rw [dif_pos (by decide)]

/-- Counterexample to C3 as stated: for the one-character non-ASCII body
with the acute-accented e (UTF-8 bytes 2, code units 1), the encoded
message never decodes — `decode(encode(M)) = M` fails — and feeding the
concatenation of its encoding with an encoded ASCII message (split at
offset 44, the whole stream in the first chunk) does not parse the two
messages: the first parsed message is the merged pair of the accented e
and the capital C stolen from the next header. -/
theorem C3_counterexample :
    utf8Length ['é'] = 2 ∧
    ([('é' : Char)] : List Char).length = 1 ∧
    extractLoop (encodeMsg ['é']) = ([], encodeMsg ['é']) ∧
    extractLoop (encodeMsg ['é']) ≠ ([[('é' : Char)]], []) ∧
    (extractLoop (encodeMsg ['é'] ++ encodeMsg ['x'])).1 = [['é', 'C']] ∧
    feedChunks [(encodeMsg ['é'] ++ encodeMsg ['x']).take 44,
                (encodeMsg ['é'] ++ encodeMsg ['x']).drop 44] ≠
      ([[('é' : Char)], [('x' : Char)]], []) := by
  have hcat : encodeMsg ['é'] ++ encodeMsg ['x'] =
      (headerPrefix ++ ('2' :: '\r' :: '\n' :: '\r' :: '\n' :: ['é'])) ++
      (headerPrefix ++ ('1' :: '\r' :: '\n' :: '\r' :: '\n' :: ['x'])) := by
    rw [encodeMsg_eacute, encodeMsg_x]
  have hrest : firstHeaderLen
      (((headerPrefix ++ ('2' :: '\r' :: '\n' :: '\r' :: '\n' :: ['é'])) ++
        (headerPrefix ++ ('1' :: '\r' :: '\n' :: '\r' :: '\n' :: ['x']))).drop
          (17 + 4 + 2)) = none := by decide
  have hloop2 : extractLoop
      (((headerPrefix ++ ('2' :: '\r' :: '\n' :: '\r' :: '\n' :: ['é'])) ++
        (headerPrefix ++ ('1' :: '\r' :: '\n' :: '\r' :: '\n' :: ['x']))).drop
          (17 + 4 + 2)) =
      ([], ((headerPrefix ++ ('2' :: '\r' :: '\n' :: '\r' :: '\n' :: ['é'])) ++
        (headerPrefix ++ ('1' :: '\r' :: '\n' :: '\r' :: '\n' :: ['x']))).drop
          (17 + 4 + 2)) := by
    rw [extractLoop, hrest]
  have hB : extractLoop (encodeMsg ['é'] ++ encodeMsg ['x']) =
      (['é', 'C'] ::
        (extractLoop (((headerPrefix ++
          ('2' :: '\r' :: '\n' :: '\r' :: '\n' :: ['é'])) ++
          (headerPrefix ++ ('1' :: '\r' :: '\n' :: '\r' :: '\n' :: ['x']))).drop
            (17 + 4 + 2))).1,
        (extractLoop (((headerPrefix ++
          ('2' :: '\r' :: '\n' :: '\r' :: '\n' :: ['é'])) ++
          (headerPrefix ++ ('1' :: '\r' :: '\n' :: '\r' :: '\n' :: ['x']))).drop
            (17 + 4 + 2))).2) := by
    rw [hcat]
    have h1 : firstHeaderLen
        ((headerPrefix ++ ('2' :: '\r' :: '\n' :: '\r' :: '\n' :: ['é'])) ++
         (headerPrefix ++ ('1' :: '\r' :: '\n' :: '\r' :: '\n' :: ['x']))) =
        some 2 := by decide
    have h2 : indexOfSeq crlf2
        ((headerPrefix ++ ('2' :: '\r' :: '\n' :: '\r' :: '\n' :: ['é'])) ++
         (headerPrefix ++ ('1' :: '\r' :: '\n' :: '\r' :: '\n' :: ['x']))) =
        some 17 := by decide
    rw [extractLoop, h1, h2]
    dsimp only
    rw [dif_neg (by decide)]
    rw [show (((headerPrefix ++ ('2' :: '\r' :: '\n' :: '\r' :: '\n' :: ['é'])) ++
        (headerPrefix ++ ('1' :: '\r' :: '\n' :: '\r' :: '\n' :: ['x']))).drop
          (17 + 4)).take 2 = ['é', 'C'] from by decide]
  refine ⟨by decide, by decide, extractLoop_eacute, ?_, ?_, ?_⟩
  · intro hcontra
    rw [extractLoop_eacute] at hcontra
    simp at hcontra
  · rw [hB, hloop2]
  · intro hcontra
    rw [List.take_of_length_le (by rw [hcat]; decide),
      List.drop_eq_nil_of_le (by rw [hcat]; decide)] at hcontra
    simp only [feedChunks, List.foldl_cons, List.foldl_nil, feedChunk,
      List.nil_append, List.append_nil] at hcontra
    rw [hB, hloop2] at hcontra
    simp at hcontra

end LCP
